import Mathlib

/-!
Verification of the qanoonSpider corpus-preparation pipeline.

Text is modelled as a list of characters. Python string helpers
(str.strip, str.split, str.lower, re.sub with the concrete patterns used by
the sources) are embedded as executable Lean functions. Whitespace is
modelled as the ASCII whitespace characters recognised by Python's str.strip.
The embedded sources are src/clean_qnoon_collection.py and
src/prepare_axolotl_cpt.py.
-/

set_option autoImplicit false

namespace Qanoon

/-- A line of text: a list of characters not containing a newline. -/
abbrev Line := List Char

/-- Whitespace as recognised by Python's str.strip / regex whitespace class
(restricted to the ASCII range). -/
def isPySpace (c : Char) : Bool :=
  c = ' ' || c = '\t' || c = '\n' || c = '\r' || c = '\x0b' || c = '\x0c'

/-- Drop trailing whitespace characters, keeping everything up to the last
non-whitespace character. -/
def dropTrailWS : List Char → List Char
  | [] => []
  | c :: rest =>
    let r := dropTrailWS rest
    if r = [] ∧ isPySpace c then [] else c :: r

/-- Python str.strip: remove leading and trailing whitespace. -/
def pyStrip (l : List Char) : List Char :=
  dropTrailWS (l.dropWhile isPySpace)

/-- Python str.split(sep) for a single-character separator: the pieces of the
text between occurrences of sep. The empty text splits to one empty piece,
like Python. -/
def splitOn (sep : Char) : List Char → List (List Char)
  | [] => [[]]
  | c :: rest =>
    match splitOn sep rest with
    | [] => [[]]
    | hd :: tl => if c = sep then [] :: hd :: tl else (c :: hd) :: tl

/-- Python text.split on a newline. -/
def splitLines (t : List Char) : List Line := splitOn '\n' t

/-- Python "sep".join for a single-character separator. -/
def joinOn (sep : Char) : List (List Char) → List Char
  | [] => []
  | [l] => l
  | l :: ls => l ++ sep :: joinOn sep ls

/-- Python "newline".join of a list of lines. -/
def joinLines (ls : List Line) : List Char := joinOn '\n' ls

/-- Last k characters of a list, Python slicing with a negative start. -/
def takeLast (l : List Char) (k : Nat) : List Char := l.drop (l.length - k)

/-! Embedding of strip_leading_download_lines from src/clean_qnoon_collection.py.
The while loop is modelled with fuel; one unit of fuel per loop iteration that
continues, and every continuing iteration removes at least one line, so
a fuel of one more than the number of lines is always sufficient. -/
/-- The Arabic download marker that the cleaner removes from document heads. -/
def downloadWord : List Char := "تحميل".data

/-- The English marker word, compared case-insensitively. -/
def englishWord : List Char := "english".data

/-- Test for a line whose stripped content is exactly the download marker. -/
def isDownloadLine (l : Line) : Bool := pyStrip l = downloadWord

/-- Test for a line whose stripped, lowercased content is the English marker. -/
def isEnglishLine (l : Line) : Bool := (pyStrip l).map Char.toLower = englishWord

/-- Pop leading blank lines, counting each removal. -/
def trimBlanks : List Line → Nat → List Line × Nat
  | [], r => ([], r)
  | l :: rest, r =>
    if pyStrip l = [] then trimBlanks rest (r + 1) else (l :: rest, r)

/-- One pass of the stripping while loop per unit of fuel: trim blank lines,
then pop a download-marker line (plus an optional following English or
download line after skipping blanks), or a standalone English line, and
continue; stop when the head of the remaining lines matches nothing. -/
def stripLoopF : Nat → List Line → Nat → List Line × Nat
  | 0, ls, r => (ls, r)
  | fuel + 1, ls, r =>
    match trimBlanks ls r with
    | ([], r1) => ([], r1)
    | (l :: rest, r1) =>
      if isDownloadLine l then
        match trimBlanks rest (r1 + 1) with
        | ([], r2) => ([], r2)
        | (m :: rest2, r2) =>
          if isEnglishLine m || isDownloadLine m then stripLoopF fuel rest2 (r2 + 1)
          else stripLoopF fuel (m :: rest2) r2
      else if isEnglishLine l then stripLoopF fuel rest (r1 + 1)
      else (l :: rest, r1)

/-- The stripping loop run with sufficient fuel. -/
def stripLoop (ls : List Line) (r : Nat) : List Line × Nat :=
  stripLoopF (ls.length + 1) ls r

/-- strip_leading_download_lines from src/clean_qnoon_collection.py: split into
lines, pop leading blank lines, run the marker-stripping loop, then join the
remaining lines and strip surrounding whitespace; returns the cleaned text and
the number of removed lines. -/
def strip_leading_download_lines (t : List Char) : List Char × Nat :=
  let p := trimBlanks (splitLines t) 0
  let q := stripLoop p.1 p.2
  (pyStrip (joinLines q.1), q.2)

/-! Embedding of normalize_newlines from src/prepare_axolotl_cpt.py.
Each Python replace / re.sub step is a separate pass, applied in source
order: byte-order-mark removal, CRLF then CR to LF, directional-mark
removal, collapsing runs of spaces and tabs to one space (the regex class
of horizontal whitespace), collapsing runs of three or more newlines to
two, and finally a strip. -/
/-- Python text.replace(x, empty string): remove every occurrence. -/
def removeAll (x : Char) (l : List Char) : List Char := l.filter (· != x)

/-- Python text.replace(a, b) for single characters. -/
def replaceChar (a b : Char) (l : List Char) : List Char :=
  l.map (fun c => if c = a then b else c)

/-- Python text.replace of a CRLF pair by a newline, scanning left to right
over non-overlapping occurrences. -/
def replaceCRLF : List Char → List Char
  | [] => []
  | [c] => [c]
  | c :: d :: rest =>
    if c = '\r' ∧ d = '\n' then '\n' :: replaceCRLF rest
    else c :: replaceCRLF (d :: rest)

/-- Horizontal whitespace: the regex class of space and tab. -/
def isHWS (c : Char) : Bool := c = ' ' || c = '\t'

/-- One step, from the right, of collapsing horizontal-whitespace runs. -/
def hwsStep (c : Char) (acc : List Char) : List Char :=
  if isHWS c then
    if acc.take 1 = [' '] then acc else ' ' :: acc
  else c :: acc

/-- re.sub of one or more spaces and tabs by a single space: every maximal
run of horizontal whitespace becomes one space. -/
def collapseHWS (l : List Char) : List Char := l.foldr hwsStep []

/-- One step, from the right, of collapsing newline runs to two newlines. -/
def nlStep (c : Char) (acc : List Char) : List Char :=
  if c = '\n' then
    if acc.take 2 = ['\n', '\n'] then acc else '\n' :: acc
  else c :: acc

/-- re.sub of three or more newlines by two newlines: every maximal newline
run keeps at most its first two newlines. -/
def collapseNL (l : List Char) : List Char := l.foldr nlStep []

/-- normalize_newlines from src/prepare_axolotl_cpt.py. -/
def normalize_newlines (t : List Char) : List Char :=
  pyStrip (collapseNL (collapseHWS (removeAll '\u200e' (removeAll '\u200f'
    (replaceChar '\r' '\n' (replaceCRLF (removeAll '\ufeff' t)))))))

/-- Scanner for two adjacent horizontal-whitespace characters. -/
def hasAdjHWS : List Char → Bool
  | a :: b :: rest => (isHWS a && isHWS b) || hasAdjHWS (b :: rest)
  | _ => false

/-- Scanner for three consecutive newline characters, that is, a run of two
or more consecutive empty lines. -/
def hasTripleNL : List Char → Bool
  | a :: b :: c :: rest => (a = '\n' && b = '\n' && c = '\n') || hasTripleNL (b :: c :: rest)
  | _ => false

/-! Embedding of chunk_text_paragraphwise from src/prepare_axolotl_cpt.py.
Paragraphs are produced by re.split on a newline, optional whitespace, and a
newline (the separator being the newline-to-last-newline part of each maximal
whitespace run that contains at least two newlines, as the greedy regex
matches it). The accumulation loop and the final hard-split fallback follow
the source; the unbounded while loop of the fallback is modelled with fuel,
with none meaning that the fuel was exhausted. -/
/-- Index of the last newline inside the maximal whitespace prefix of the
text, if any: the end of a paragraph-separator match started by a previous
newline. -/
def wsRunNLIdx (l : List Char) : Option Nat :=
  ((l.takeWhile isPySpace).reverse.findIdx? (· = '\n')).map
    (fun j => (l.takeWhile isPySpace).length - 1 - j)

/-- Scanner for re.split on the paragraph separator pattern: a newline,
optional whitespace, then a newline. The accumulator holds the current piece
reversed; fuel decreases on every step and one character is consumed per
step, so input length plus one suffices. -/
def splitParasGo : Nat → List Char → List Char → List (List Char)
  | 0, acc, rest => [acc.reverse ++ rest]
  | _ + 1, acc, [] => [acc.reverse]
  | fuel + 1, acc, c :: rest =>
    if c = '\n' then
      match wsRunNLIdx rest with
      | some k => acc.reverse :: splitParasGo fuel [] (rest.drop (k + 1))
      | none => splitParasGo fuel ('\n' :: acc) rest
    else splitParasGo fuel (c :: acc) rest

/-- re.split of the text on blank-line separators. -/
def reSplitParas (t : List Char) : List (List Char) :=
  splitParasGo (t.length + 1) [] t

/-- One step of the paragraph-accumulation loop: state is (chunks, buffer).
An empty buffer takes the paragraph; a fitting paragraph is appended to the
buffer after a blank line; otherwise the stripped buffer is emitted and the
next buffer is seeded with the overlap tail. -/
def paraStep (maxc ov : Nat) (st : List (List Char) × List Char) (p : List Char) :
    List (List Char) × List Char :=
  if st.2 = [] then (st.1, p)
  else if st.2.length + p.length + 2 ≤ maxc then (st.1, st.2 ++ '\n' :: '\n' :: p)
  else (st.1 ++ [pyStrip st.2],
    pyStrip ((if 0 < ov then takeLast st.2 ov else []) ++ '\n' :: '\n' :: p))

/-- The chunks produced by the paragraph-accumulation stage, before the
hard-split fallback. -/
def paraChunksRaw (t : List Char) (maxc ov : Nat) : List (List Char) :=
  let paras := ((reSplitParas t).map pyStrip).filter (· ≠ [])
  let st := paras.foldl (paraStep maxc ov) ([], [])
  if st.2 ≠ [] then st.1 ++ [pyStrip st.2] else st.1

/-- The hard-split while loop of the fallback: slice a window of at most
maxc characters, strip it, and advance the start to max(0, end−overlap);
fuel bounds the number of iterations and none means exhaustion, which is
how a non-advancing loop shows up in the model. -/
def hardSplitGo (c : List Char) (maxc ov : Nat) :
    Nat → Nat → List (List Char) → Option (List (List Char))
  | 0, _, _ => none
  | fuel + 1, start, acc =>
    if start < c.length then
      if c.length ≤ min (start + maxc) c.length then
        some (acc ++ [pyStrip ((c.drop start).take (min (start + maxc) c.length - start))])
      else
        hardSplitGo c maxc ov fuel (min (start + maxc) c.length - ov)
          (acc ++ [pyStrip ((c.drop start).take (min (start + maxc) c.length - start))])
    else some acc

/-- The fallback pass over the accumulated chunks: chunks within the bound
are kept, oversize chunks are hard-split. -/
def harden (maxc ov : Nat) : List (List Char) → Option (List (List Char))
  | [] => some []
  | c :: rest =>
    if c.length ≤ maxc then (harden maxc ov rest).map (c :: ·)
    else
      match hardSplitGo c maxc ov (c.length + 1) 0 [] with
      | none => none
      | some pieces => (harden maxc ov rest).map (pieces ++ ·)

/-- chunk_text_paragraphwise from src/prepare_axolotl_cpt.py: paragraph
accumulation, hard-split fallback, and removal of empty chunks. -/
def chunk_text_paragraphwise (t : List Char) (maxc ov : Nat) :
    Option (List (List Char)) :=
  (harden maxc ov (paraChunksRaw t maxc ov)).map (fun l => l.filter (· ≠ []))

/-! Embedding of maybe_cap_chunks from src/prepare_axolotl_cpt.py. The seeded
random generator is modelled as an explicit state of an arbitrary type,
threaded through a sampling function; rng.sample(range(n), k) is a call that
returns the drawn index list and the successor state. Python indexing
chunks[i] is modelled with the partial lookup, so an out-of-range index from
the sampler would surface as none rather than a list. -/
/-- The Python list comprehension over chunk indices: look up every index,
propagating an out-of-range lookup as a failure. -/
def getAll {α : Type} (l : List α) : List Nat → Option (List α)
  | [] => some []
  | i :: is =>
    match l[i]?, getAll l is with
    | some x, some xs => some (x :: xs)
    | _, _ => none

/-- maybe_cap_chunks from src/prepare_axolotl_cpt.py: return the chunk list
unchanged when the cap is non-positive or not exceeded, leaving the random
state untouched; otherwise draw cap indices from the sampler, sort them, and
keep the chunks at those indices in index order. -/
def maybe_cap_chunks {σ : Type} (sample : σ → Nat → Nat → List Nat × σ)
    (chunks : List (List Char)) (cap : Int) (rng : σ) :
    Option (List (List Char)) × σ :=
  if cap ≤ 0 ∨ (chunks.length : Int) ≤ cap then (some chunks, rng)
  else
    (getAll chunks ((sample rng chunks.length cap.toNat).1.mergeSort Nat.ble),
     (sample rng chunks.length cap.toNat).2)

/-! Embedding of the train/validation split in main of
src/prepare_axolotl_cpt.py. The post-shuffle record sequence is the input;
the validation-size expression int(len * ratio) uses Python int(), which
truncates toward zero, modelled by Int.tdiv on an exact rational. -/
/-- Python int() applied to a (rational-valued) product: truncation toward
zero. -/
def pyIntTrunc (q : ℚ) : Int := Int.tdiv q.num (q.den : Int)

/-- The validation size computed by main: max(1, int(total * ratio)) when
any records exist, else zero. -/
def val_size (total : Nat) (r : ℚ) : Nat :=
  if total = 0 then 0 else (max 1 (pyIntTrunc ((total : ℚ) * r))).toNat

/-- The partition in main: validation is the first val_size records of the
shuffled sequence, training is the remainder. -/
def split_train_val {α : Type} (records : List α) (r : ℚ) : List α × List α :=
  (records.take (val_size records.length r), records.drop (val_size records.length r))

/-! Embedding of split_by_articles and chunk_document from
src/prepare_axolotl_cpt.py. The multiline regex split matches, before a
line start, a lookahead of optional whitespace, one of the two Arabic
article heading words, at least one whitespace character, an optional
opening parenthesis, and a digit (digits are modelled as ASCII digits). -/
/-- The lookahead of the article-heading pattern at a position. -/
def articleLookahead (s : List Char) : Bool :=
  let t := s.dropWhile isPySpace
  let afterWord :=
    if t.take ("المادة".data).length = "المادة".data then
      some (t.drop ("المادة".data).length)
    else if t.take ("مادة".data).length = "مادة".data then
      some (t.drop ("مادة".data).length)
    else none
  match afterWord with
  | none => false
  | some u =>
    match u with
    | [] => false
    | c :: _ =>
      if isPySpace c then
        match (if (u.dropWhile isPySpace).take 1 = ['('] then (u.dropWhile isPySpace).drop 1
               else u.dropWhile isPySpace) with
        | d :: _ => d.isDigit
        | [] => false
      else false

/-- Zero-width splitting at every line start whose lookahead matches: pieces
end just before a matching position, and the separating newline stays with
the preceding piece. -/
def splitArticlesGo (acc : List Char) : List Char → List (List Char)
  | [] => [acc.reverse]
  | c :: rest =>
    if c = '\n' && articleLookahead rest then
      (acc.reverse ++ ['\n']) :: splitArticlesGo [] rest
    else splitArticlesGo (c :: acc) rest

/-- re.split of the text on the article-heading lookahead pattern, including
the empty leading piece produced by a match at the very start. -/
def reSplitArticles (t : List Char) : List (List Char) :=
  if articleLookahead t then [] :: splitArticlesGo [] t else splitArticlesGo [] t

/-- split_by_articles from src/prepare_axolotl_cpt.py: strip the pieces,
drop empty ones, and return them only when a genuine split happened. -/
def split_by_articles (t : List Char) : Option (List (List Char)) :=
  if (((reSplitArticles t).map pyStrip).filter (· ≠ [])).length > 1 then
    some (((reSplitArticles t).map pyStrip).filter (· ≠ []))
  else none

/-- The per-span loop of chunk_document: spans within the bound are emitted
as single chunks, longer spans go through the paragraph chunker, and the
results are concatenated in span order. -/
def chunkParts (maxc ov : Nat) : List (List Char) → Option (List (List Char))
  | [] => some []
  | p :: rest =>
    if p.length ≤ maxc then (chunkParts maxc ov rest).map (p :: ·)
    else
      match chunk_text_paragraphwise p maxc ov, chunkParts maxc ov rest with
      | some a, some r => some (a ++ r)
      | _, _ => none

/-- chunk_document from src/prepare_axolotl_cpt.py: try the article split
when enabled, fall back to paragraph chunking of the whole document when the
splitter signals no split (Python truthiness also treats an empty list as no
split), otherwise chunk per span. -/
def chunk_document (t : List Char) (maxc ov : Nat) (use_article_split : Bool) :
    Option (List (List Char)) :=
  if use_article_split then
    match split_by_articles t with
    | some parts =>
      if parts = [] then chunk_text_paragraphwise t maxc ov
      else chunkParts maxc ov parts
    | none => chunk_text_paragraphwise t maxc ov
  else chunk_text_paragraphwise t maxc ov

/-! Embedding of parse_overrides from src/prepare_axolotl_cpt.py. Python
int() is modelled as an optional sign followed by one or more digits
(ASCII), after stripping whitespace; the dict is an insertion-ordered
association list updated in place on duplicate keys. -/
/-- One or more ASCII digits read as a number; none on an empty or
non-digit input. -/
def parseDigits (l : List Char) : Option Nat :=
  if l = [] then none
  else l.foldl (fun acc c =>
    acc.bind (fun n => if c.isDigit then some (n * 10 + (c.toNat - '0'.toNat)) else none))
    (some 0)

/-- Python int() on a stripped string: optional sign, then digits. -/
def pyParseInt (l : List Char) : Option Int :=
  match l with
  | '+' :: rest => (parseDigits rest).map (fun n => (n : Int))
  | '-' :: rest => (parseDigits rest).map (fun n => -(n : Int))
  | _ => (parseDigits l).map (fun n => (n : Int))

/-- Insertion-ordered dictionary update: replace the value of an existing
key, else append. -/
def dictInsert (d : List (List Char × Int)) (k : List Char) (v : Int) :
    List (List Char × Int) :=
  if d.any (fun p => p.1 = k) then d.map (fun p => if p.1 = k then (k, v) else p)
  else d ++ [(k, v)]

/-- The loop of parse_overrides over the comma-separated parts: skip blank
parts, fail on a part without an equals sign, fail on a non-integer value,
else record key and value. -/
def overridesLoop :
    List (List Char) → List (List Char × Int) → Except (List Char) (List (List Char × Int))
  | [], out => Except.ok out
  | part0 :: rest, out =>
    if pyStrip part0 = [] then overridesLoop rest out
    else if ¬ (pyStrip part0).contains '=' then
      Except.error ("Bad override, use CAT=NUM".data)
    else
      match pyParseInt (pyStrip (((pyStrip part0).dropWhile (· != '=')).tail)) with
      | some n =>
        overridesLoop rest (dictInsert out (pyStrip ((pyStrip part0).takeWhile (· != '='))) n)
      | none => Except.error ("invalid literal for int".data)

/-- parse_overrides from src/prepare_axolotl_cpt.py. -/
def parse_overrides (s : List Char) : Except (List Char) (List (List Char × Int)) :=
  if pyStrip s = [] then Except.ok []
  else overridesLoop (splitOn ',' s) []

/-- A comma-separated part that parse_overrides accepts: blank after
stripping, or containing an equals sign with an integer-parsable value. -/
def goodPart (part : List Char) : Bool :=
  pyStrip part = [] ||
    ((pyStrip part).contains '=' &&
      (pyParseInt (pyStrip (((pyStrip part).dropWhile (· != '=')).tail))).isSome)

-- Basic lemmas about the splitting and stripping helpers.
theorem splitOn_ne_nil (sep : Char) (t : List Char) : splitOn sep t ≠ [] := by
  cases t with
  | nil => simp [splitOn]
  | cons c rest =>
    simp only [splitOn]
    cases splitOn sep rest with
    | nil => simp
    | cons hd tl => by_cases h : c = sep <;> simp [h]

theorem joinOn_cons (sep : Char) (l : List Char) (ls : List (List Char)) (h : ls ≠ []) :
    joinOn sep (l :: ls) = l ++ sep :: joinOn sep ls := by
  cases ls with
  | nil => exact absurd rfl h
  | cons m ms => rfl

theorem splitOn_cons_eq (sep c : Char) (rest hd : List Char) (tl : List (List Char))
    (h : splitOn sep rest = hd :: tl) :
    splitOn sep (c :: rest) = if c = sep then [] :: hd :: tl else (c :: hd) :: tl := by
  simp only [splitOn, h]

theorem joinOn_splitOn (sep : Char) (t : List Char) : joinOn sep (splitOn sep t) = t := by
  induction t with
  | nil => rfl
  | cons c rest ih =>
    cases hrest : splitOn sep rest with
    | nil => exact absurd hrest (splitOn_ne_nil sep rest)
    | cons hd tl =>
      rw [hrest] at ih
      rw [splitOn_cons_eq sep c rest hd tl hrest]
      by_cases h : c = sep
      · subst h
        rw [if_pos rfl, joinOn_cons _ _ _ (by simp)]
        simp [ih]
      · rw [if_neg h]
        cases tl with
        | nil => simp only [joinOn] at ih ⊢; rw [ih]
        | cons t2 ts =>
          rw [joinOn_cons _ _ _ (by simp)] at ih ⊢
          rw [List.cons_append, ih]

theorem join_splitLines (t : List Char) : joinLines (splitLines t) = t :=
  joinOn_splitOn '\n' t

theorem mem_splitOn_not_sep (sep : Char) (t : List Char) :
    ∀ l ∈ splitOn sep t, sep ∉ l := by
  induction t with
  | nil => intro l hl; simp [splitOn] at hl; simp [hl]
  | cons c rest ih =>
    intro l hl
    cases hrest : splitOn sep rest with
    | nil => exact absurd hrest (splitOn_ne_nil sep rest)
    | cons hd tl =>
      rw [hrest] at ih
      rw [splitOn_cons_eq sep c rest hd tl hrest] at hl
      by_cases h : c = sep
      · rw [if_pos h] at hl
        rcases List.mem_cons.1 hl with rfl | hl
        · simp
        · exact ih l hl
      · rw [if_neg h] at hl
        rcases List.mem_cons.1 hl with rfl | hl
        · intro hmem
          rcases List.mem_cons.1 hmem with rfl | hmem
          · exact h rfl
          · exact ih hd (List.mem_cons_self _ _) hmem
        · exact ih l (List.mem_cons_of_mem _ hl)

theorem mem_of_mem_splitOn (sep : Char) (t : List Char) :
    ∀ l ∈ splitOn sep t, ∀ c ∈ l, c ∈ t := by
  induction t with
  | nil => intro l hl; simp [splitOn] at hl; simp [hl]
  | cons a rest ih =>
    intro l hl c hc
    cases hrest : splitOn sep rest with
    | nil => exact absurd hrest (splitOn_ne_nil sep rest)
    | cons hd tl =>
      rw [hrest] at ih
      rw [splitOn_cons_eq sep a rest hd tl hrest] at hl
      by_cases h : a = sep
      · rw [if_pos h] at hl
        rcases List.mem_cons.1 hl with rfl | hl
        · simp at hc
        · exact List.mem_cons_of_mem _ (ih l hl c hc)
      · rw [if_neg h] at hl
        rcases List.mem_cons.1 hl with rfl | hl
        · rcases List.mem_cons.1 hc with rfl | hc
          · exact List.mem_cons_self _ _
          · exact List.mem_cons_of_mem _ (ih hd (List.mem_cons_self _ _) c hc)
        · exact List.mem_cons_of_mem _ (ih l (List.mem_cons_of_mem _ hl) c hc)

theorem dropTrailWS_eq_take (l : List Char) : ∃ k, dropTrailWS l = l.take k := by
  induction l with
  | nil => exact ⟨0, rfl⟩
  | cons c rest ih =>
    rcases ih with ⟨k, hk⟩
    simp only [dropTrailWS]
    by_cases h : dropTrailWS rest = [] ∧ isPySpace c
    · exact ⟨0, by rw [if_pos h]; rfl⟩
    · refine ⟨k + 1, ?_⟩
      rw [if_neg h, hk, List.take_succ_cons]

theorem dropWhile_eq_drop {α : Type} (p : α → Bool) (l : List α) :
    ∃ k, l.dropWhile p = l.drop k := by
  induction l with
  | nil => exact ⟨0, rfl⟩
  | cons c rest ih =>
    rcases ih with ⟨k, hk⟩
    by_cases h : p c
    · exact ⟨k + 1, by simp [List.dropWhile, h, hk]⟩
    · exact ⟨0, by simp [List.dropWhile, h]⟩

theorem length_dropTrailWS_le (l : List Char) : (dropTrailWS l).length ≤ l.length := by
  rcases dropTrailWS_eq_take l with ⟨k, hk⟩
  rw [hk, List.length_take]
  omega

theorem length_pyStrip_le (l : List Char) : (pyStrip l).length ≤ l.length := by
  unfold pyStrip
  calc (dropTrailWS (l.dropWhile isPySpace)).length
      ≤ (l.dropWhile isPySpace).length := length_dropTrailWS_le _
    _ ≤ l.length := by
        rcases dropWhile_eq_drop isPySpace l with ⟨k, hk⟩
        rw [hk, List.length_drop]; omega

theorem take_eq_cons {α : Type} (l : List α) (k : Nat) (c : α) (r : List α)
    (h : l.take k = c :: r) : ∃ r2, l = c :: r2 := by
  cases l with
  | nil => simp at h
  | cons a as =>
    cases k with
    | zero => simp at h
    | succ k =>
      rw [List.take_succ_cons] at h
      injection h with h1 h2
      exact ⟨as, by rw [h1]⟩

theorem dropTrailWS_eq_nil_iff (l : List Char) :
    dropTrailWS l = [] ↔ ∀ c ∈ l, isPySpace c := by
  induction l with
  | nil => simp [dropTrailWS]
  | cons c rest ih =>
    simp only [dropTrailWS]
    by_cases h : dropTrailWS rest = [] ∧ isPySpace c
    · rw [if_pos h]
      simp only [true_iff, List.mem_cons]
      intro x hx
      rcases hx with rfl | hx
      · exact h.2
      · exact ih.1 h.1 x hx
    · rw [if_neg h]
      constructor
      · intro hfalse; exact absurd hfalse (List.cons_ne_nil _ _)
      · intro hall
        exfalso
        exact h ⟨ih.2 fun x hx => hall x (List.mem_cons_of_mem _ hx),
          hall c (List.mem_cons_self _ _)⟩

theorem dropTrailWS_append (a b : List Char) :
    dropTrailWS (a ++ b) =
      if dropTrailWS b = [] then dropTrailWS a else a ++ dropTrailWS b := by
  induction a with
  | nil =>
    by_cases h : dropTrailWS b = []
    · rw [List.nil_append, if_pos h, h]; rfl
    · rw [List.nil_append, if_neg h, List.nil_append]
  | cons c as ih =>
    by_cases h : dropTrailWS b = []
    · rw [if_pos h, List.cons_append]
      simp only [dropTrailWS]
      rw [ih, if_pos h]
    · rw [if_neg h, List.cons_append]
      simp only [dropTrailWS]
      rw [ih, if_neg h]
      have hne : ¬(as ++ dropTrailWS b = [] ∧ isPySpace c) := by
        intro hcontra
        exact h (List.append_eq_nil.1 hcontra.1).2
      rw [if_neg hne, List.cons_append]

theorem dropTrailWS_idem (l : List Char) : dropTrailWS (dropTrailWS l) = dropTrailWS l := by
  induction l with
  | nil => rfl
  | cons c rest ih =>
    simp only [dropTrailWS]
    by_cases h : dropTrailWS rest = [] ∧ isPySpace c
    · rw [if_pos h]; rfl
    · rw [if_neg h]
      simp only [dropTrailWS, ih]
      rw [if_neg h]

theorem dropTrailWS_reverse_char (l : List Char) :
    dropTrailWS l = (l.reverse.dropWhile isPySpace).reverse := by
  induction l with
  | nil => rfl
  | cons c rest ih =>
    simp only [dropTrailWS, List.reverse_cons]
    rw [List.dropWhile_append]
    by_cases h : dropTrailWS rest = []
    · have hrev : rest.reverse.dropWhile isPySpace = [] := by
        rw [ih] at h
        simpa using h
      by_cases hc : isPySpace c
      · rw [if_pos (⟨h, hc⟩ : dropTrailWS rest = [] ∧ isPySpace c)]
        rw [if_pos (show (rest.reverse.dropWhile isPySpace).isEmpty = true by simp [hrev])]
        simp [List.dropWhile, hc]
      · rw [if_neg (show ¬(dropTrailWS rest = [] ∧ isPySpace c) from fun hco => hc hco.2)]
        rw [if_pos (show (rest.reverse.dropWhile isPySpace).isEmpty = true by simp [hrev])]
        rw [h]
        simp [List.dropWhile, hc]
    · have hrev : rest.reverse.dropWhile isPySpace ≠ [] := by
        intro hcontra
        apply h
        rw [ih, hcontra]
        rfl
      rw [if_neg (show ¬(dropTrailWS rest = [] ∧ isPySpace c) from fun hco => h hco.1)]
      rw [if_neg (show ¬(rest.reverse.dropWhile isPySpace).isEmpty = true by simpa using hrev)]
      rw [List.reverse_append, ih]
      simp

theorem dropWhile_head_false {α : Type} (p : α → Bool) (l : List α) (c : α) (r : List α)
    (h : l.dropWhile p = c :: r) : p c = false := by
  induction l with
  | nil => simp at h
  | cons a as ih =>
    rw [List.dropWhile_cons] at h
    by_cases ha : p a
    · rw [if_pos ha] at h; exact ih h
    · rw [if_neg ha] at h
      injection h with h1 h2
      rw [← h1]
      simpa using ha

theorem pyStrip_head_not_ws (l : List Char) (c : Char) (r : List Char)
    (h : pyStrip l = c :: r) : isPySpace c = false := by
  unfold pyStrip at h
  rcases dropTrailWS_eq_take (l.dropWhile isPySpace) with ⟨k, hk⟩
  rw [hk] at h
  rcases take_eq_cons _ _ _ _ h with ⟨r2, hr2⟩
  exact dropWhile_head_false isPySpace l c r2 hr2

theorem dropWhile_pyStrip (l : List Char) :
    (pyStrip l).dropWhile isPySpace = pyStrip l := by
  cases h : pyStrip l with
  | nil => rfl
  | cons c r =>
    have := pyStrip_head_not_ws l c r h
    rw [List.dropWhile_cons_of_neg (by simp [this])]

theorem pyStrip_idem (l : List Char) : pyStrip (pyStrip l) = pyStrip l := by
  conv_lhs => rw [pyStrip, dropWhile_pyStrip]
  rw [pyStrip, dropTrailWS_idem]

theorem pyStrip_eq_nil_iff (l : List Char) :
    pyStrip l = [] ↔ ∀ c ∈ l, isPySpace c := by
  unfold pyStrip
  rw [dropTrailWS_eq_nil_iff]
  constructor
  · intro h c hc
    by_cases hcs : isPySpace c
    · exact hcs
    · exfalso
      have hne : l.dropWhile isPySpace ≠ [] := by
        rw [ne_eq, List.dropWhile_eq_nil_iff]
        push_neg
        exact ⟨c, hc, by simp [hcs]⟩
      cases hd : l.dropWhile isPySpace with
      | nil => exact hne hd
      | cons d ds =>
        have hdws := dropWhile_head_false isPySpace l d ds hd
        have : d ∈ l.dropWhile isPySpace := by rw [hd]; exact List.mem_cons_self _ _
        have := h d this
        rw [hdws] at this
        exact Bool.false_ne_true this
  · intro h c hc
    rcases dropWhile_eq_drop isPySpace l with ⟨k, hk⟩
    rw [hk] at hc
    exact h c (List.drop_subset _ _ hc)

theorem trimBlanks_drop (ls : List Line) (r : Nat) :
    ∃ k, k ≤ ls.length ∧ trimBlanks ls r = (ls.drop k, r + k) := by
  induction ls generalizing r with
  | nil => exact ⟨0, Nat.le_refl _, rfl⟩
  | cons l rest ih =>
    by_cases h : pyStrip l = []
    · rcases ih (r + 1) with ⟨k, hk, hres⟩
      refine ⟨k + 1, by simpa using Nat.succ_le_succ hk, ?_⟩
      simp only [trimBlanks, if_pos h]
      rw [hres]
      simp only [List.drop_succ_cons, Prod.mk.injEq]
      exact ⟨trivial, by omega⟩
    · exact ⟨0, Nat.zero_le _, by simp [trimBlanks, h]⟩

theorem trimBlanks_head (ls : List Line) (r : Nat) (l : Line) (rest : List Line) (r1 : Nat)
    (h : trimBlanks ls r = (l :: rest, r1)) : pyStrip l ≠ [] := by
  induction ls generalizing r with
  | nil => simp [trimBlanks] at h
  | cons a as ih =>
    by_cases ha : pyStrip a = []
    · rw [trimBlanks, if_pos ha] at h
      exact ih (r + 1) h
    · rw [trimBlanks, if_neg ha] at h
      injection h with h1 h2
      injection h1 with h3 h4
      rw [← h3]
      exact ha

theorem trimBlanks_noop (r : Nat) (l : Line) (rest : List Line)
    (hhead : pyStrip l ≠ []) : trimBlanks (l :: rest) r = (l :: rest, r) := by
  rw [trimBlanks, if_neg hhead]

-- Unfolding equations for one iteration of the stripping loop, given the
-- outcome of the blank-line trimming.
theorem stripLoopF_nil_case (fuel : Nat) (ls : List Line) (r r1 : Nat)
    (h : trimBlanks ls r = ([], r1)) : stripLoopF (fuel + 1) ls r = ([], r1) := by
  rw [stripLoopF, h]

theorem stripLoopF_dl_nil (fuel : Nat) (ls : List Line) (r : Nat) (l : Line)
    (rest : List Line) (r1 r2 : Nat)
    (h : trimBlanks ls r = (l :: rest, r1)) (hdl : isDownloadLine l)
    (h2 : trimBlanks rest (r1 + 1) = ([], r2)) :
    stripLoopF (fuel + 1) ls r = ([], r2) := by
  rw [stripLoopF, h]
  simp only [hdl, if_true, h2]

theorem stripLoopF_dl_cons (fuel : Nat) (ls : List Line) (r : Nat) (l m : Line)
    (rest rest2 : List Line) (r1 r2 : Nat)
    (h : trimBlanks ls r = (l :: rest, r1)) (hdl : isDownloadLine l)
    (h2 : trimBlanks rest (r1 + 1) = (m :: rest2, r2)) :
    stripLoopF (fuel + 1) ls r =
      if isEnglishLine m || isDownloadLine m then stripLoopF fuel rest2 (r2 + 1)
      else stripLoopF fuel (m :: rest2) r2 := by
  rw [stripLoopF, h]
  simp only [hdl, if_true, h2]

theorem stripLoopF_en_case (fuel : Nat) (ls : List Line) (r : Nat) (l : Line)
    (rest : List Line) (r1 : Nat)
    (h : trimBlanks ls r = (l :: rest, r1)) (hdl : isDownloadLine l = false)
    (hen : isEnglishLine l) :
    stripLoopF (fuel + 1) ls r = stripLoopF fuel rest (r1 + 1) := by
  rw [stripLoopF, h]
  simp only [hdl, Bool.false_eq_true, if_false, hen, if_true]

theorem stripLoopF_stop (fuel : Nat) (ls : List Line) (r : Nat) (l : Line)
    (rest : List Line) (r1 : Nat)
    (h : trimBlanks ls r = (l :: rest, r1)) (hdl : isDownloadLine l = false)
    (hen : isEnglishLine l = false) :
    stripLoopF (fuel + 1) ls r = (l :: rest, r1) := by
  rw [stripLoopF, h]
  simp only [hdl, hen, Bool.false_eq_true, if_false]

theorem drop_cons_of_drop {α : Type} (ls : List α) (k : Nat) (l : α) (rest : List α)
    (h : ls.drop k = l :: rest) : ls.drop (k + 1) = rest := by
  rw [show k + 1 = k + 1 from rfl, ← List.drop_drop]
  rw [h]
  rfl

theorem drop_len_of_drop_nil {α : Type} (ls : List α) (k : Nat) (hk : k ≤ ls.length)
    (h : ls.drop k = []) : k = ls.length := by
  have := congrArg List.length h
  simp [List.length_drop] at this
  omega

theorem stripLoopF_drop (fuel : Nat) (ls : List Line) (r : Nat) (hf : ls.length < fuel) :
    ∃ k, k ≤ ls.length ∧ stripLoopF fuel ls r = (ls.drop k, r + k) := by
  induction fuel generalizing ls r with
  | zero => omega
  | succ fuel ih =>
    rcases trimBlanks_drop ls r with ⟨k0, hk0, htb⟩
    cases hdrop : ls.drop k0 with
    | nil =>
      have hk0eq : k0 = ls.length := drop_len_of_drop_nil ls k0 hk0 hdrop
      refine ⟨ls.length, Nat.le_refl _, ?_⟩
      rw [stripLoopF_nil_case fuel ls r (r + k0) (by rw [htb, hdrop]), List.drop_length, hk0eq]
    | cons l rest =>
      have htb' : trimBlanks ls r = (l :: rest, r + k0) := by rw [htb, hdrop]
      have hrestlen : rest.length = ls.length - k0 - 1 := by
        have := congrArg List.length hdrop
        simp [List.length_drop] at this
        omega
      have hk0lt : k0 < ls.length := by
        by_contra hcon
        have : ls.drop k0 = [] := List.drop_eq_nil_of_le (by omega)
        rw [this] at hdrop
        exact absurd hdrop.symm (List.cons_ne_nil _ _)
      by_cases hdl : isDownloadLine l
      · rcases trimBlanks_drop rest (r + k0 + 1) with ⟨k2, hk2, htb2⟩
        cases hdrop2 : rest.drop k2 with
        | nil =>
          have hk2eq : k2 = rest.length := drop_len_of_drop_nil rest k2 hk2 hdrop2
          refine ⟨ls.length, Nat.le_refl _, ?_⟩
          rw [stripLoopF_dl_nil fuel ls r l rest (r + k0) (r + k0 + 1 + k2) htb' hdl
            (by rw [htb2, hdrop2]), List.drop_length]
          simp only [Prod.mk.injEq, true_and]
          omega
        | cons m rest2 =>
          have htb2' : trimBlanks rest (r + k0 + 1) = (m :: rest2, r + k0 + 1 + k2) := by
            rw [htb2, hdrop2]
          have hrest2len : rest2.length = rest.length - k2 - 1 := by
            have := congrArg List.length hdrop2
            simp [List.length_drop] at this
            omega
          have hk2lt : k2 < rest.length := by
            by_contra hcon
            have : rest.drop k2 = [] := List.drop_eq_nil_of_le (by omega)
            rw [this] at hdrop2
            exact absurd hdrop2.symm (List.cons_ne_nil _ _)
          rw [stripLoopF_dl_cons fuel ls r l m rest rest2 (r + k0) (r + k0 + 1 + k2) htb' hdl htb2']
          have e1 : ls.drop (k0 + 1) = rest := drop_cons_of_drop ls k0 l rest hdrop
          have e2 : rest.drop (k2 + 1) = rest2 := drop_cons_of_drop rest k2 m rest2 hdrop2
          by_cases hen : isEnglishLine m || isDownloadLine m
          · rw [if_pos hen]
            rcases ih rest2 (r + k0 + 1 + k2 + 1) (by omega) with ⟨k3, hk3, hres⟩
            refine ⟨k0 + 1 + k2 + 1 + k3, by omega, ?_⟩
            rw [hres]
            have : ls.drop (k0 + 1 + k2 + 1 + k3) = rest2.drop k3 := by
              have h1 : rest2.drop k3 = ls.drop (k0 + 1 + k2 + 1 + k3) := by
                rw [← e2, ← e1, List.drop_drop, List.drop_drop]
                congr 1
                omega
              exact h1.symm
            rw [this]
            simp only [Prod.mk.injEq, true_and]
            omega
          · rw [if_neg hen]
            rcases ih (m :: rest2) (r + k0 + 1 + k2) (by simp; omega) with ⟨k3, hk3, hres⟩
            refine ⟨k0 + 1 + k2 + k3, by simp at hk3; omega, ?_⟩
            rw [hres]
            have e2' : rest.drop k2 = m :: rest2 := hdrop2
            have : ls.drop (k0 + 1 + k2 + k3) = (m :: rest2).drop k3 := by
              have h1 : (m :: rest2).drop k3 = ls.drop (k0 + 1 + k2 + k3) := by
                rw [← e2', ← e1, List.drop_drop, List.drop_drop]
                congr 1
                omega
              exact h1.symm
            rw [this]
            simp only [Prod.mk.injEq, true_and]
            omega
      · have e1 : ls.drop (k0 + 1) = rest := drop_cons_of_drop ls k0 l rest hdrop
        by_cases hen : isEnglishLine l
        · rw [stripLoopF_en_case fuel ls r l rest (r + k0) htb'
            (Bool.not_eq_true _ ▸ Bool.of_not_eq_true hdl) hen]
          rcases ih rest (r + k0 + 1) (by omega) with ⟨k3, hk3, hres⟩
          refine ⟨k0 + 1 + k3, by omega, ?_⟩
          rw [hres]
          have : ls.drop (k0 + 1 + k3) = rest.drop k3 := by
            have h1 : rest.drop k3 = ls.drop (k0 + 1 + k3) := by
              rw [← e1, List.drop_drop]
            exact h1.symm
          rw [this]
          simp only [Prod.mk.injEq, true_and]
          omega
        · rw [stripLoopF_stop fuel ls r l rest (r + k0) htb'
            (Bool.of_not_eq_true hdl) (Bool.of_not_eq_true hen)]
          exact ⟨k0, hk0, by rw [hdrop]⟩

theorem stripLoopF_post (fuel : Nat) (ls : List Line) (r : Nat) (hf : ls.length < fuel) :
    (stripLoopF fuel ls r).1 = [] ∨
      ∃ l rest, (stripLoopF fuel ls r).1 = l :: rest ∧ pyStrip l ≠ [] ∧
        isDownloadLine l = false ∧ isEnglishLine l = false := by
  induction fuel generalizing ls r with
  | zero => omega
  | succ fuel ih =>
    rcases trimBlanks_drop ls r with ⟨k0, hk0, htb⟩
    cases hdrop : ls.drop k0 with
    | nil =>
      left
      rw [stripLoopF_nil_case fuel ls r (r + k0) (by rw [htb, hdrop])]
    | cons l rest =>
      have htb' : trimBlanks ls r = (l :: rest, r + k0) := by rw [htb, hdrop]
      have hrestlen : rest.length = ls.length - k0 - 1 := by
        have := congrArg List.length hdrop
        simp [List.length_drop] at this
        omega
      have hk0lt : k0 < ls.length := by
        by_contra hcon
        have : ls.drop k0 = [] := List.drop_eq_nil_of_le (by omega)
        rw [this] at hdrop
        exact absurd hdrop.symm (List.cons_ne_nil _ _)
      by_cases hdl : isDownloadLine l
      · rcases trimBlanks_drop rest (r + k0 + 1) with ⟨k2, hk2, htb2⟩
        cases hdrop2 : rest.drop k2 with
        | nil =>
          left
          rw [stripLoopF_dl_nil fuel ls r l rest (r + k0) (r + k0 + 1 + k2) htb' hdl
            (by rw [htb2, hdrop2])]
        | cons m rest2 =>
          have htb2' : trimBlanks rest (r + k0 + 1) = (m :: rest2, r + k0 + 1 + k2) := by
            rw [htb2, hdrop2]
          have hrest2len : rest2.length = rest.length - k2 - 1 := by
            have := congrArg List.length hdrop2
            simp [List.length_drop] at this
            omega
          have hk2lt : k2 < rest.length := by
            by_contra hcon
            have : rest.drop k2 = [] := List.drop_eq_nil_of_le (by omega)
            rw [this] at hdrop2
            exact absurd hdrop2.symm (List.cons_ne_nil _ _)
          rw [stripLoopF_dl_cons fuel ls r l m rest rest2 (r + k0) (r + k0 + 1 + k2) htb' hdl htb2']
          by_cases hen : isEnglishLine m || isDownloadLine m
          · rw [if_pos hen]
            exact ih rest2 (r + k0 + 1 + k2 + 1) (by omega)
          · rw [if_neg hen]
            exact ih (m :: rest2) (r + k0 + 1 + k2) (by simp; omega)
      · by_cases hen : isEnglishLine l
        · rw [stripLoopF_en_case fuel ls r l rest (r + k0) htb' (Bool.of_not_eq_true hdl) hen]
          exact ih rest (r + k0 + 1) (by omega)
        · rw [stripLoopF_stop fuel ls r l rest (r + k0) htb'
            (Bool.of_not_eq_true hdl) (Bool.of_not_eq_true hen)]
          exact Or.inr ⟨l, rest, rfl, trimBlanks_head ls r l rest (r + k0) htb',
            Bool.of_not_eq_true hdl, Bool.of_not_eq_true hen⟩

theorem mem_pyStrip (l : List Char) : ∀ c ∈ pyStrip l, c ∈ l := by
  intro c hc
  unfold pyStrip at hc
  rcases dropTrailWS_eq_take (l.dropWhile isPySpace) with ⟨k, hk⟩
  rw [hk] at hc
  have hc2 : c ∈ l.dropWhile isPySpace := List.take_subset _ _ hc
  rcases dropWhile_eq_drop isPySpace l with ⟨k2, hk2⟩
  rw [hk2] at hc2
  exact List.drop_subset _ _ hc2

theorem splitOn_of_not_mem (sep : Char) (t : List Char) (h : sep ∉ t) :
    splitOn sep t = [t] := by
  induction t with
  | nil => rfl
  | cons c rest ih =>
    have hc : c ≠ sep := fun hcc => h (hcc ▸ List.mem_cons_self _ _)
    have hrest : sep ∉ rest := fun hr => h (List.mem_cons_of_mem _ hr)
    rw [splitOn_cons_eq sep c rest rest [] (ih hrest), if_neg hc]

theorem splitOn_append_noSep (sep : Char) (a b hd : List Char) (tl : List (List Char))
    (ha : sep ∉ a) (hb : splitOn sep b = hd :: tl) :
    splitOn sep (a ++ b) = (a ++ hd) :: tl := by
  induction a with
  | nil => simpa using hb
  | cons c as ih =>
    have hc : c ≠ sep := fun hcc => ha (hcc ▸ List.mem_cons_self _ _)
    have has : sep ∉ as := fun hr => ha (List.mem_cons_of_mem _ hr)
    rw [List.cons_append, splitOn_cons_eq sep c (as ++ b) (as ++ hd) tl (ih has), if_neg hc]
    rfl

theorem splitOn_sep_cons (sep : Char) (x : List Char) :
    splitOn sep (sep :: x) = [] :: splitOn sep x := by
  cases hx : splitOn sep x with
  | nil => exact absurd hx (splitOn_ne_nil sep x)
  | cons hd tl => rw [splitOn_cons_eq sep sep x hd tl hx, if_pos rfl]

theorem dropWhile_pyspace_ne_nil (h : Line) (hstrip : pyStrip h ≠ []) :
    h.dropWhile isPySpace ≠ [] := by
  intro hcon
  apply hstrip
  unfold pyStrip
  rw [hcon]
  rfl

theorem pyStrip_dropWhile_self (h : Line) :
    pyStrip (h.dropWhile isPySpace) = pyStrip h := by
  unfold pyStrip
  cases hd : h.dropWhile isPySpace with
  | nil => rfl
  | cons c r =>
    have hcws := dropWhile_head_false isPySpace h c r hd
    rw [List.dropWhile_cons_of_neg (by simp [hcws])]

/-- Head-line analysis for a second pass of the stripper: stripping the join
of a line block whose head line has nonempty stripped content yields a text
whose first line strips to the same content as that head line. -/
theorem pyStrip_join_head (h : Line) (tl : List Line)
    (hstrip : pyStrip h ≠ []) (hnl : '\n' ∉ h) :
    ∃ l1 L1, splitLines (pyStrip (joinLines (h :: tl))) = l1 :: L1 ∧
      pyStrip l1 = pyStrip h := by
  have hdw : h.dropWhile isPySpace ≠ [] := dropWhile_pyspace_ne_nil h hstrip
  have hnlh' : '\n' ∉ h.dropWhile isPySpace := by
    intro hcon
    rcases dropWhile_eq_drop isPySpace h with ⟨k, hk⟩
    rw [hk] at hcon
    exact hnl (List.drop_subset _ _ hcon)
  cases tl with
  | nil =>
    refine ⟨pyStrip h, [], ?_, pyStrip_idem h⟩
    have hcnl : '\n' ∉ pyStrip (joinLines [h]) := by
      intro hcon
      exact hnl (mem_pyStrip _ _ (by simpa [joinLines, joinOn] using hcon))
    rw [show joinLines [h] = h from rfl] at hcnl ⊢
    unfold splitLines
    rw [splitOn_of_not_mem '\n' (pyStrip h) hcnl]
  | cons t2 ts =>
    have hjoin : joinLines (h :: t2 :: ts) = h ++ '\n' :: joinLines (t2 :: ts) :=
      joinOn_cons '\n' h (t2 :: ts) (by simp)
    rw [hjoin]
    unfold pyStrip
    rw [List.dropWhile_append]
    rw [if_neg (show ¬(h.dropWhile isPySpace).isEmpty = true by simpa using hdw)]
    rw [dropTrailWS_append]
    by_cases hJ : dropTrailWS ('\n' :: joinLines (t2 :: ts)) = []
    · rw [if_pos hJ]
      refine ⟨pyStrip h, [], ?_, pyStrip_idem h⟩
      have heq : dropTrailWS (h.dropWhile isPySpace) = pyStrip h := rfl
      rw [heq]
      have hcnl : '\n' ∉ pyStrip h := fun hcon => hnl (mem_pyStrip _ _ hcon)
      unfold splitLines
      rw [splitOn_of_not_mem '\n' (pyStrip h) hcnl]
    · rw [if_neg hJ]
      have hK : dropTrailWS (joinLines (t2 :: ts)) ≠ [] := by
        intro hcon
        apply hJ
        simp only [dropTrailWS]
        rw [if_pos ⟨hcon, by simp [isPySpace]⟩]
      have hJeq : dropTrailWS ('\n' :: joinLines (t2 :: ts)) =
          '\n' :: dropTrailWS (joinLines (t2 :: ts)) := by
        simp only [dropTrailWS]
        rw [if_neg (fun hco => hK hco.1)]
      rw [hJeq]
      refine ⟨h.dropWhile isPySpace, splitOn '\n' (dropTrailWS (joinLines (t2 :: ts))), ?_, ?_⟩
      · unfold splitLines
        rw [splitOn_append_noSep '\n' (h.dropWhile isPySpace) _ [] _ hnlh'
          (splitOn_sep_cons '\n' _)]
        rw [List.append_nil]
      · exact pyStrip_dropWhile_self h

/-- The stripper deletes a prefix of the line list, of size equal to the
reported removed-line count, and finally strips surrounding whitespace from
the joined remainder. -/
theorem strip_leading_spec (t : List Char) :
    ∃ k, k ≤ (splitLines t).length ∧
      strip_leading_download_lines t = (pyStrip (joinLines ((splitLines t).drop k)), k) := by
  rcases trimBlanks_drop (splitLines t) 0 with ⟨k0, hk0, htb⟩
  have hfuel : ((splitLines t).drop k0).length < ((splitLines t).drop k0).length + 1 :=
    Nat.lt_succ_self _
  rcases stripLoopF_drop (((splitLines t).drop k0).length + 1) ((splitLines t).drop k0)
      (0 + k0) hfuel with ⟨k1, hk1, hq⟩
  refine ⟨k0 + k1, ?_, ?_⟩
  · rw [List.length_drop] at hk1
    omega
  · unfold strip_leading_download_lines stripLoop
    simp only [htb, hq, List.drop_drop]
    rw [Nat.zero_add]

theorem strip_leading_removed_le (t : List Char) :
    (strip_leading_download_lines t).2 ≤ (splitLines t).length := by
  rcases strip_leading_spec t with ⟨k, hk, heq⟩
  rw [heq]
  exact hk

theorem strip_leading_unfold (t : List Char) :
    strip_leading_download_lines t =
      (pyStrip (joinLines
        (stripLoop (trimBlanks (splitLines t) 0).1 (trimBlanks (splitLines t) 0).2).1),
       (stripLoop (trimBlanks (splitLines t) 0).1 (trimBlanks (splitLines t) 0).2).2) := rfl

theorem isDownloadLine_congr (a b : Line) (h : pyStrip a = pyStrip b) :
    isDownloadLine a = isDownloadLine b := by
  unfold isDownloadLine
  rw [h]

theorem isEnglishLine_congr (a b : Line) (h : pyStrip a = pyStrip b) :
    isEnglishLine a = isEnglishLine b := by
  unfold isEnglishLine
  rw [h]

/-- Second-pass behaviour of the stripper: on a nonempty cleaned output the
stripper returns its input unchanged with a removed-line count of zero. -/
theorem strip_leading_idem_of_ne_nil (t : List Char)
    (hne : (strip_leading_download_lines t).1 ≠ []) :
    strip_leading_download_lines ((strip_leading_download_lines t).1) =
      ((strip_leading_download_lines t).1, 0) := by
  rcases trimBlanks_drop (splitLines t) 0 with ⟨k0, hk0, htb⟩
  have hfuel : ((splitLines t).drop k0).length < ((splitLines t).drop k0).length + 1 :=
    Nat.lt_succ_self _
  have hres1 : (strip_leading_download_lines t).1 =
      pyStrip (joinLines ((stripLoopF (((splitLines t).drop k0).length + 1)
        ((splitLines t).drop k0) (0 + k0)).1)) := by
    rw [strip_leading_unfold]
    simp only [htb]
    rfl
  rcases stripLoopF_post (((splitLines t).drop k0).length + 1) ((splitLines t).drop k0)
      (0 + k0) hfuel with hempty | ⟨h, tl, hQ, hps, hdl, hen⟩
  · exfalso
    apply hne
    rw [hres1, hempty]
    rfl
  · have hmem : h ∈ splitLines t := by
      have h1 : h ∈ (stripLoopF (((splitLines t).drop k0).length + 1)
          ((splitLines t).drop k0) (0 + k0)).1 := by
        rw [hQ]; exact List.mem_cons_self _ _
      rcases stripLoopF_drop (((splitLines t).drop k0).length + 1) ((splitLines t).drop k0)
          (0 + k0) hfuel with ⟨k1, hk1, hq⟩
      rw [hq] at h1
      exact List.drop_subset _ _ (List.drop_subset _ _ h1)
    have hnl : '\n' ∉ h := mem_splitOn_not_sep '\n' t h hmem
    have hres1' : (strip_leading_download_lines t).1 = pyStrip (joinLines (h :: tl)) := by
      rw [hres1, hQ]
    rcases pyStrip_join_head h tl hps hnl with ⟨l1, L1, hsplit, hl1⟩
    have hl1ne : pyStrip l1 ≠ [] := by rw [hl1]; exact hps
    have htrim2 : trimBlanks (l1 :: L1) 0 = (l1 :: L1, 0) := trimBlanks_noop _ _ _ hl1ne
    have hdl1 : isDownloadLine l1 = false := by rw [isDownloadLine_congr l1 h hl1]; exact hdl
    have hen1 : isEnglishLine l1 = false := by rw [isEnglishLine_congr l1 h hl1]; exact hen
    have hloop2 : stripLoop (l1 :: L1) 0 = (l1 :: L1, 0) := by
      unfold stripLoop
      exact stripLoopF_stop _ _ _ _ _ _ htrim2 hdl1 hen1
    rw [hres1']
    rw [strip_leading_unfold (pyStrip (joinLines (h :: tl)))]
    rw [hsplit]
    simp only [htrim2, hloop2]
    have hjoin : joinLines (l1 :: L1) = pyStrip (joinLines (h :: tl)) := by
      conv_rhs => rw [← join_splitLines (pyStrip (joinLines (h :: tl)))]
      rw [hsplit]
    rw [hjoin, pyStrip_idem]

theorem mem_removeAll (x : Char) (l : List Char) : ∀ c ∈ removeAll x l, c ∈ l := by
  intro c hc
  exact List.mem_of_mem_filter hc

theorem not_mem_removeAll (x : Char) (l : List Char) : x ∉ removeAll x l := by
  intro hx
  have := List.of_mem_filter hx
  simp at this

theorem mem_replaceChar (a b : Char) (l : List Char) :
    ∀ c ∈ replaceChar a b l, c ∈ l ∨ c = b := by
  intro c hc
  rcases List.mem_map.1 hc with ⟨d, hd, hdc⟩
  by_cases hda : d = a
  · right
    rw [← hdc, if_pos hda]
  · left
    rw [← hdc, if_neg hda]
    exact hd

theorem not_mem_replaceChar (a b : Char) (l : List Char) (hab : b ≠ a) :
    a ∉ replaceChar a b l := by
  intro ha
  rcases List.mem_map.1 ha with ⟨d, hd, hdc⟩
  by_cases hda : d = a
  · rw [if_pos hda] at hdc
    exact hab hdc
  · rw [if_neg hda] at hdc
    exact hda hdc

theorem mem_replaceCRLF (l : List Char) : ∀ x ∈ replaceCRLF l, x ∈ l := by
  induction l using replaceCRLF.induct with
  | case1 => simp [replaceCRLF]
  | case2 c => simp [replaceCRLF]
  | case3 c d rest h ih =>
    intro x hx
    rw [replaceCRLF, if_pos h] at hx
    rcases List.mem_cons.1 hx with rfl | hx
    · simp [h.2]
    · simp [ih x hx]
  | case4 c d rest h ih =>
    intro x hx
    rw [replaceCRLF, if_neg h] at hx
    rcases List.mem_cons.1 hx with rfl | hx
    · simp
    · simp only [List.mem_cons]
      right
      exact List.mem_cons.1 (ih x hx)

theorem mem_hwsStep (c : Char) (acc : List Char) :
    ∀ x ∈ hwsStep c acc, x = c ∨ x = ' ' ∨ x ∈ acc := by
  intro x hx
  unfold hwsStep at hx
  by_cases h : isHWS c
  · rw [if_pos h] at hx
    by_cases h2 : acc.take 1 = [' ']
    · rw [if_pos h2] at hx
      exact Or.inr (Or.inr hx)
    · rw [if_neg h2] at hx
      rcases List.mem_cons.1 hx with rfl | hx
      · exact Or.inr (Or.inl rfl)
      · exact Or.inr (Or.inr hx)
  · rw [if_neg h] at hx
    rcases List.mem_cons.1 hx with rfl | hx
    · exact Or.inl rfl
    · exact Or.inr (Or.inr hx)

theorem mem_collapseHWS (l : List Char) : ∀ x ∈ collapseHWS l, x ∈ l ∨ x = ' ' := by
  induction l with
  | nil => simp [collapseHWS]
  | cons c rest ih =>
    intro x hx
    rcases mem_hwsStep c (collapseHWS rest) x hx with rfl | rfl | hx
    · exact Or.inl (List.mem_cons_self _ _)
    · exact Or.inr rfl
    · rcases ih x hx with hm | hs
      · exact Or.inl (List.mem_cons_of_mem _ hm)
      · exact Or.inr hs

theorem mem_nlStep (c : Char) (acc : List Char) :
    ∀ x ∈ nlStep c acc, x = c ∨ x = '\n' ∨ x ∈ acc := by
  intro x hx
  unfold nlStep at hx
  by_cases h : c = '\n'
  · rw [if_pos h] at hx
    by_cases h2 : acc.take 2 = ['\n', '\n']
    · rw [if_pos h2] at hx
      exact Or.inr (Or.inr hx)
    · rw [if_neg h2] at hx
      rcases List.mem_cons.1 hx with rfl | hx
      · exact Or.inr (Or.inl rfl)
      · exact Or.inr (Or.inr hx)
  · rw [if_neg h] at hx
    rcases List.mem_cons.1 hx with rfl | hx
    · exact Or.inl rfl
    · exact Or.inr (Or.inr hx)

theorem mem_collapseNL (l : List Char) : ∀ x ∈ collapseNL l, x ∈ l ∨ x = '\n' := by
  induction l with
  | nil => simp [collapseNL]
  | cons c rest ih =>
    intro x hx
    rcases mem_nlStep c (collapseNL rest) x hx with rfl | rfl | hx
    · exact Or.inl (List.mem_cons_self _ _)
    · exact Or.inr rfl
    · rcases ih x hx with hm | hs
      · exact Or.inl (List.mem_cons_of_mem _ hm)
      · exact Or.inr hs

theorem collapseHWS_cons (c : Char) (rest : List Char) :
    collapseHWS (c :: rest) = hwsStep c (collapseHWS rest) := rfl

theorem collapseNL_cons (c : Char) (rest : List Char) :
    collapseNL (c :: rest) = nlStep c (collapseNL rest) := rfl

theorem tab_not_mem_collapseHWS (l : List Char) : '\t' ∉ collapseHWS l := by
  induction l with
  | nil => simp [collapseHWS]
  | cons c rest ih =>
    rw [collapseHWS_cons]
    unfold hwsStep
    by_cases h : isHWS c
    · rw [if_pos h]
      by_cases h2 : (collapseHWS rest).take 1 = [' ']
      · rw [if_pos h2]
        exact ih
      · rw [if_neg h2]
        intro hx
        rcases List.mem_cons.1 hx with hx | hx
        · exact absurd hx.symm (by decide)
        · exact ih hx
    · rw [if_neg h]
      intro hx
      rcases List.mem_cons.1 hx with hx | hx
      · apply h
        rw [← hx]
        simp [isHWS]
      · exact ih hx

theorem hasAdjHWS_cons_cons (a b : Char) (rest : List Char) :
    hasAdjHWS (a :: b :: rest) = ((isHWS a && isHWS b) || hasAdjHWS (b :: rest)) := rfl

theorem hasAdjHWS_tail (c : Char) (l : List Char) (h : hasAdjHWS (c :: l) = false) :
    hasAdjHWS l = false := by
  cases l with
  | nil => rfl
  | cons y ys =>
    rw [hasAdjHWS_cons_cons] at h
    exact (Bool.or_eq_false_iff.1 h).2

theorem hasAdjHWS_cons_of_not (x : Char) (l : List Char) (hx : isHWS x = false) :
    hasAdjHWS (x :: l) = hasAdjHWS l := by
  cases l with
  | nil => rfl
  | cons y ys =>
    rw [hasAdjHWS_cons_cons, hx]
    simp

theorem hasAdjHWS_collapseHWS (l : List Char) : hasAdjHWS (collapseHWS l) = false := by
  induction l with
  | nil => rfl
  | cons c rest ih =>
    rw [collapseHWS_cons]
    unfold hwsStep
    by_cases h : isHWS c
    · rw [if_pos h]
      by_cases h2 : (collapseHWS rest).take 1 = [' ']
      · rw [if_pos h2]
        exact ih
      · rw [if_neg h2]
        cases hacc : collapseHWS rest with
        | nil => rfl
        | cons a as =>
          rw [hasAdjHWS_cons_cons]
          have ha1 : a ≠ ' ' := by
            intro hcon
            apply h2
            rw [hacc, hcon]
            rfl
          have ha2 : a ≠ '\t' := by
            intro hcon
            apply tab_not_mem_collapseHWS rest
            rw [hacc, ← hcon]
            exact List.mem_cons_self _ _
          have hha : isHWS a = false := by
            unfold isHWS
            simp [ha1, ha2]
          rw [hha]
          simp only [Bool.and_false, Bool.false_or]
          rw [← hacc]
          exact ih
    · rw [if_neg h]
      rw [hasAdjHWS_cons_of_not c _ (Bool.of_not_eq_true h)]
      exact ih

theorem collapseNL_head (l : List Char) : (collapseNL l).head? = l.head? := by
  induction l with
  | nil => rfl
  | cons c rest ih =>
    rw [collapseNL_cons]
    unfold nlStep
    by_cases h : c = '\n'
    · rw [if_pos h]
      by_cases h2 : (collapseNL rest).take 2 = ['\n', '\n']
      · rw [if_pos h2]
        rcases take_eq_cons _ _ _ _ h2 with ⟨r2, hr2⟩
        rw [hr2, h]
        rfl
      · rw [if_neg h2, h]
        rfl
    · rw [if_neg h]
      rfl

theorem hasAdjHWS_collapseNL (l : List Char) (h : hasAdjHWS l = false) :
    hasAdjHWS (collapseNL l) = false := by
  induction l with
  | nil => rfl
  | cons c rest ih =>
    have hrest : hasAdjHWS rest = false := hasAdjHWS_tail c rest h
    rw [collapseNL_cons]
    unfold nlStep
    by_cases hc : c = '\n'
    · rw [if_pos hc]
      by_cases h2 : (collapseNL rest).take 2 = ['\n', '\n']
      · rw [if_pos h2]
        exact ih hrest
      · rw [if_neg h2]
        rw [hasAdjHWS_cons_of_not '\n' _ (by decide)]
        exact ih hrest
    · rw [if_neg hc]
      by_cases hh : isHWS c
      · cases hacc : collapseNL rest with
        | nil => rfl
        | cons a as =>
          rw [hasAdjHWS_cons_cons]
          cases hrest2 : rest with
          | nil =>
            rw [hrest2] at hacc
            simp [collapseNL] at hacc
          | cons y ys =>
            have hhead : (collapseNL rest).head? = some y := by
              rw [collapseNL_head, hrest2]
              rfl
            rw [hacc] at hhead
            simp only [List.head?_cons, Option.some.injEq] at hhead
            have hy : isHWS y = false := by
              rw [hrest2, hasAdjHWS_cons_cons] at h
              rcases Bool.or_eq_false_iff.1 h with ⟨h1, _⟩
              rcases Bool.and_eq_false_iff.1 h1 with h1 | h1
              · rw [hh] at h1
                exact absurd h1 (by simp)
              · exact h1
            have hya : isHWS a = false := by rw [hhead]; exact hy
            rw [hya]
            simp only [Bool.and_false, Bool.false_or]
            rw [← hacc]
            exact ih hrest
      · rw [hasAdjHWS_cons_of_not c _ (Bool.of_not_eq_true hh)]
        exact ih hrest

theorem hasTripleNL_cons3 (a b c : Char) (rest : List Char) :
    hasTripleNL (a :: b :: c :: rest) =
      ((a = '\n' && b = '\n' && c = '\n') || hasTripleNL (b :: c :: rest)) := rfl

theorem hasTripleNL_tail (a : Char) (l : List Char) (h : hasTripleNL (a :: l) = false) :
    hasTripleNL l = false := by
  cases l with
  | nil => rfl
  | cons b bs =>
    cases bs with
    | nil => rfl
    | cons c cs =>
      rw [hasTripleNL_cons3] at h
      exact (Bool.or_eq_false_iff.1 h).2

theorem hasTripleNL_cons_no3 (a : Char) (l : List Char)
    (hcond : a ≠ '\n' ∨ ¬(l.take 2 = ['\n', '\n'])) :
    hasTripleNL (a :: l) = hasTripleNL l := by
  cases l with
  | nil => rfl
  | cons b bs =>
    cases bs with
    | nil => rfl
    | cons c cs =>
      rw [hasTripleNL_cons3]
      have : (a = '\n' && b = '\n' && c = '\n') = false := by
        rcases hcond with ha | htk
        · simp [ha]
        · have : ¬(b = '\n' ∧ c = '\n') := by
            intro ⟨hb, hcc⟩
            apply htk
            rw [hb, hcc]
            rfl
          rcases Decidable.not_and_iff_or_not.1 this with hb | hcc
          · simp [hb]
          · simp [hcc]
      rw [this]
      simp

theorem hasTripleNL_collapseNL (l : List Char) : hasTripleNL (collapseNL l) = false := by
  induction l with
  | nil => rfl
  | cons c rest ih =>
    rw [collapseNL_cons]
    unfold nlStep
    by_cases hc : c = '\n'
    · rw [if_pos hc]
      by_cases h2 : (collapseNL rest).take 2 = ['\n', '\n']
      · rw [if_pos h2]
        exact ih
      · rw [if_neg h2]
        rw [hasTripleNL_cons_no3 '\n' _ (Or.inr h2)]
        exact ih
    · rw [if_neg hc]
      rw [hasTripleNL_cons_no3 c _ (Or.inl hc)]
      exact ih

theorem hasAdjHWS_drop (k : Nat) (l : List Char) (h : hasAdjHWS l = false) :
    hasAdjHWS (l.drop k) = false := by
  induction k generalizing l with
  | zero => exact h
  | succ k ih =>
    cases l with
    | nil => rfl
    | cons c rest =>
      rw [List.drop_succ_cons]
      exact ih rest (hasAdjHWS_tail c rest h)

theorem hasAdjHWS_take (k : Nat) (l : List Char) (h : hasAdjHWS l = false) :
    hasAdjHWS (l.take k) = false := by
  induction l generalizing k with
  | nil => simpa using h
  | cons c rest ih =>
    cases k with
    | zero => rfl
    | succ k =>
      rw [List.take_succ_cons]
      cases htk : rest.take k with
      | nil => rfl
      | cons y ys =>
        rcases take_eq_cons _ _ _ _ htk with ⟨r2, hr2⟩
        rw [hasAdjHWS_cons_cons]
        have hpair : (isHWS c && isHWS y) = false := by
          rw [hr2, hasAdjHWS_cons_cons] at h
          exact (Bool.or_eq_false_iff.1 h).1
        rw [hpair]
        simp only [Bool.false_or]
        rw [← htk]
        exact ih k (hasAdjHWS_tail c rest h)

theorem hasTripleNL_drop (k : Nat) (l : List Char) (h : hasTripleNL l = false) :
    hasTripleNL (l.drop k) = false := by
  induction k generalizing l with
  | zero => exact h
  | succ k ih =>
    cases l with
    | nil => rfl
    | cons c rest =>
      rw [List.drop_succ_cons]
      exact ih rest (hasTripleNL_tail c rest h)

theorem hasTripleNL_take (k : Nat) (l : List Char) (h : hasTripleNL l = false) :
    hasTripleNL (l.take k) = false := by
  induction l generalizing k with
  | nil => simpa using h
  | cons c rest ih =>
    cases k with
    | zero => rfl
    | succ k =>
      rw [List.take_succ_cons]
      by_cases hcond : c = '\n' ∧ (rest.take k).take 2 = ['\n', '\n']
      · exfalso
        rcases hcond with ⟨hc, htk⟩
        rw [List.take_take] at htk
        rcases take_eq_cons _ _ _ _ htk with ⟨r2, hr2⟩
        have htk2 : rest.take (min 2 k) ≠ [] := by rw [htk]; simp
        have hmin : min 2 k = 2 := by
          rcases Nat.le_total 2 k with hle | hle
          · simp [Nat.min_eq_left hle]
          · interval_cases k <;> simp_all
        rw [hmin] at htk
        rcases take_eq_cons _ _ _ _ htk with ⟨r3, hr3⟩
        have htk3 : r3.take 1 = ['\n'] := by
          have : rest.take 2 = '\n' :: r3.take 1 := by
            rw [hr3]
            rfl
          rw [htk] at this
          injection this with h1 h2
          exact h2.symm
        rcases take_eq_cons _ _ _ _ htk3 with ⟨r4, hr4⟩
        rw [hr3, hr4, hc, hasTripleNL_cons3] at h
        simp at h
      · rw [Decidable.not_and_iff_or_not] at hcond
        rw [hasTripleNL_cons_no3 c _ hcond]
        exact ih k (hasTripleNL_tail c rest h)

theorem hasAdjHWS_pyStrip (l : List Char) (h : hasAdjHWS l = false) :
    hasAdjHWS (pyStrip l) = false := by
  unfold pyStrip
  rcases dropTrailWS_eq_take (l.dropWhile isPySpace) with ⟨k1, hk1⟩
  rcases dropWhile_eq_drop isPySpace l with ⟨k2, hk2⟩
  rw [hk1, hk2]
  exact hasAdjHWS_take k1 _ (hasAdjHWS_drop k2 l h)

theorem hasTripleNL_pyStrip (l : List Char) (h : hasTripleNL l = false) :
    hasTripleNL (pyStrip l) = false := by
  unfold pyStrip
  rcases dropTrailWS_eq_take (l.dropWhile isPySpace) with ⟨k1, hk1⟩
  rcases dropWhile_eq_drop isPySpace l with ⟨k2, hk2⟩
  rw [hk1, hk2]
  exact hasTripleNL_take k1 _ (hasTripleNL_drop k2 l h)

theorem pyStrip_last_not_ws (l : List Char) (c : Char)
    (h : (pyStrip l).getLast? = some c) : isPySpace c = false := by
  unfold pyStrip at h
  rw [dropTrailWS_reverse_char, List.getLast?_reverse] at h
  cases hd : (l.dropWhile isPySpace).reverse.dropWhile isPySpace with
  | nil => rw [hd] at h; simp at h
  | cons d ds =>
    rw [hd] at h
    simp only [List.head?_cons, Option.some.injEq] at h
    rw [← h]
    exact dropWhile_head_false _ _ _ _ hd

theorem not_mem_collapseHWS_of (x : Char) (l : List Char) (hx : x ∉ l) (hs : x ≠ ' ') :
    x ∉ collapseHWS l := by
  intro hmem
  rcases mem_collapseHWS l x hmem with hm | he
  · exact hx hm
  · exact hs he

theorem not_mem_collapseNL_of (x : Char) (l : List Char) (hx : x ∉ l) (hs : x ≠ '\n') :
    x ∉ collapseNL l := by
  intro hmem
  rcases mem_collapseNL l x hmem with hm | he
  · exact hx hm
  · exact hs he

theorem not_mem_pyStrip_of (x : Char) (l : List Char) (hx : x ∉ l) : x ∉ pyStrip l :=
  fun hmem => hx (mem_pyStrip l x hmem)

/-- C7: for every input text the Normalizer output contains no byte-order
mark, no directional marks, no carriage return, no run of two or more
adjacent horizontal-whitespace characters, no run of three consecutive
newlines (hence no run of two or more consecutive empty lines, in particular
none of three or more), and neither starts nor ends with whitespace; the
function is total, so it always succeeds, possibly with an empty result. -/
theorem claim_C7 (t : List Char) :
    '\ufeff' ∉ normalize_newlines t ∧
    '\u200e' ∉ normalize_newlines t ∧
    '\u200f' ∉ normalize_newlines t ∧
    '\r' ∉ normalize_newlines t ∧
    hasAdjHWS (normalize_newlines t) = false ∧
    hasTripleNL (normalize_newlines t) = false ∧
    (∀ c, (normalize_newlines t).head? = some c → isPySpace c = false) ∧
    (∀ c, (normalize_newlines t).getLast? = some c → isPySpace c = false) := by
  unfold normalize_newlines
  refine ⟨?_, ?_, ?_, ?_, ?_, ?_, ?_, ?_⟩
  · apply not_mem_pyStrip_of
    apply not_mem_collapseNL_of _ _ _ (by decide)
    apply not_mem_collapseHWS_of _ _ _ (by decide)
    intro hmem
    have h3 := mem_removeAll _ _ _ hmem
    have h4 := mem_removeAll _ _ _ h3
    rcases mem_replaceChar _ _ _ _ h4 with hm | he
    · exact not_mem_removeAll '\ufeff' t (mem_replaceCRLF _ _ hm)
    · exact absurd he (by decide)
  · apply not_mem_pyStrip_of
    apply not_mem_collapseNL_of _ _ _ (by decide)
    apply not_mem_collapseHWS_of _ _ _ (by decide)
    exact not_mem_removeAll '\u200e' _
  · apply not_mem_pyStrip_of
    apply not_mem_collapseNL_of _ _ _ (by decide)
    apply not_mem_collapseHWS_of _ _ _ (by decide)
    intro hmem
    exact not_mem_removeAll '\u200f' _ (mem_removeAll _ _ _ hmem)
  · apply not_mem_pyStrip_of
    apply not_mem_collapseNL_of _ _ _ (by decide)
    apply not_mem_collapseHWS_of _ _ _ (by decide)
    intro hmem
    have h3 := mem_removeAll _ _ _ hmem
    have h4 := mem_removeAll _ _ _ h3
    exact not_mem_replaceChar '\r' '\n' _ (by decide) h4
  · exact hasAdjHWS_pyStrip _ (hasAdjHWS_collapseNL _ (hasAdjHWS_collapseHWS _))
  · exact hasTripleNL_pyStrip _ (hasTripleNL_collapseNL _)
  · intro c hc
    cases hp : pyStrip (collapseNL (collapseHWS (removeAll '\u200e' (removeAll '\u200f'
        (replaceChar '\r' '\n' (replaceCRLF (removeAll '\ufeff' t))))))) with
    | nil => rw [hp] at hc; simp at hc
    | cons d ds =>
      rw [hp] at hc
      simp only [List.head?_cons, Option.some.injEq] at hc
      rw [← hc]
      exact pyStrip_head_not_ws _ d ds hp
  · intro c hc
    exact pyStrip_last_not_ws _ c hc

theorem claim_C7_witness :
    isPySpace 'a' = false ∧ '\r' ∉ normalize_newlines "  a\r\n\n\n\nb\t c  ".data :=
  ⟨(claim_C7 "  a\r\n\n\n\nb\t c  ".data).2.2.2.2.2.2.1 'a' (by decide),
   (claim_C7 "  a\r\n\n\n\nb\t c  ".data).2.2.2.1⟩

/-- C5 counterexample: the Noise-Line Stripper is not idempotent in the
claimed sense on every input. When the first pass cleans the whole document
away, the cleaned text is the empty string; a second pass splits the empty
string into a single blank line and removes it, reporting one removed line,
not zero. -/
theorem claim_C5_counterexample :
    ¬ (strip_leading_download_lines ((strip_leading_download_lines "تحميل".data).1) =
       ((strip_leading_download_lines "تحميل".data).1, 0)) := by decide

/-- C5, amended: whenever the cleaned text produced by
strip_leading_download_lines is nonempty, applying the stripper again yields
the same cleaned text and a removed-line count of zero; on an empty cleaned
text the second pass also returns empty text but counts one removed line. -/
theorem claim_C5 (t : List Char) (hne : (strip_leading_download_lines t).1 ≠ []) :
    strip_leading_download_lines ((strip_leading_download_lines t).1) =
      ((strip_leading_download_lines t).1, 0) :=
  strip_leading_idem_of_ne_nil t hne

theorem claim_C5_witness :
    strip_leading_download_lines
        ((strip_leading_download_lines ("تحميل\nEnglish\nhello there".data)).1) =
      ((strip_leading_download_lines ("تحميل\nEnglish\nhello there".data)).1, 0) :=
  claim_C5 ("تحميل\nEnglish\nhello there".data) (by decide)

/-- C6 counterexample: the cleaned text is not always the input's line list
with a prefix deleted; the final whitespace strip also edits the remaining
lines. On the one-line input consisting of letters followed by a space, no
line is removed, yet the cleaned text differs from the original line. -/
theorem claim_C6_counterexample :
    (strip_leading_download_lines "hi ".data).1 ≠
      joinLines ((splitLines "hi ".data).drop
        ((strip_leading_download_lines "hi ".data).2)) := by decide

/-- C6, amended: the stripper removes exactly a prefix of the input's line
list, of size equal to the reported removed-line count (which never exceeds
the number of lines); the cleaned text is the join of the remaining lines
with surrounding whitespace then stripped, so apart from that final global
whitespace trim every remaining line is intact and the body is unscanned. -/
theorem claim_C6 (t : List Char) :
    (strip_leading_download_lines t).1 =
      pyStrip (joinLines ((splitLines t).drop ((strip_leading_download_lines t).2))) ∧
    (strip_leading_download_lines t).2 ≤ (splitLines t).length := by
  rcases strip_leading_spec t with ⟨k, hk, heq⟩
  have h2 : (strip_leading_download_lines t).2 = k := by rw [heq]
  constructor
  · rw [h2, heq]
  · rw [h2]
    exact hk

theorem hardSplitGo_some (c : List Char) (maxc ov : Nat) (hov : ov < maxc) :
    ∀ fuel start acc, c.length - start < fuel → (∀ x ∈ acc, x.length ≤ maxc) →
      ∃ r, hardSplitGo c maxc ov fuel start acc = some r ∧ ∀ x ∈ r, x.length ≤ maxc := by
  intro fuel
  induction fuel with
  | zero => intro start acc h _; omega
  | succ fuel ih =>
    intro start acc hlt hacc
    rw [hardSplitGo]
    by_cases hs : start < c.length
    · rw [if_pos hs]
      have hpiece :
          (pyStrip ((c.drop start).take (min (start + maxc) c.length - start))).length ≤ maxc := by
        calc (pyStrip ((c.drop start).take (min (start + maxc) c.length - start))).length
            ≤ ((c.drop start).take (min (start + maxc) c.length - start)).length :=
              length_pyStrip_le _
          _ ≤ maxc := by
              rw [List.length_take]
              omega
      have hacc2 : ∀ x ∈ acc ++ [pyStrip ((c.drop start).take (min (start + maxc) c.length - start))],
          x.length ≤ maxc := by
        intro x hx
        rcases List.mem_append.1 hx with hx | hx
        · exact hacc x hx
        · rw [List.mem_singleton.1 hx]
          exact hpiece
      by_cases he : c.length ≤ min (start + maxc) c.length
      · rw [if_pos he]
        exact ⟨_, rfl, hacc2⟩
      · rw [if_neg he]
        have hmin : min (start + maxc) c.length = start + maxc := by omega
        apply ih (min (start + maxc) c.length - ov) _ _ hacc2
        omega
    · rw [if_neg hs]
      exact ⟨acc, rfl, hacc⟩

theorem harden_some (maxc ov : Nat) (hov : ov < maxc) (cs : List (List Char)) :
    ∃ r, harden maxc ov cs = some r ∧ ∀ x ∈ r, x.length ≤ maxc := by
  induction cs with
  | nil => exact ⟨[], rfl, by simp⟩
  | cons c rest ih =>
    rcases ih with ⟨r, hr, hb⟩
    by_cases hc : c.length ≤ maxc
    · rw [harden, if_pos hc, hr]
      refine ⟨c :: r, rfl, ?_⟩
      intro x hx
      rcases List.mem_cons.1 hx with rfl | hx
      · exact hc
      · exact hb x hx
    · rw [harden, if_neg hc]
      rcases hardSplitGo_some c maxc ov hov (c.length + 1) 0 [] (by omega) (by simp)
        with ⟨p, hp, hpb⟩
      rw [hp, hr]
      refine ⟨p ++ r, rfl, ?_⟩
      intro x hx
      rcases List.mem_append.1 hx with hx | hx
      · exact hpb x hx
      · exact hb x hx

/-- C1: for every input text, chunk maximum M greater than zero, and overlap
O with O less than M, the paragraph chunker succeeds and every chunk it
returns has length at most M, over both the paragraph-accumulation path and
the hard-split fallback path. -/
theorem claim_C1 (t : List Char) (maxc ov : Nat) (h1 : 0 < maxc) (h2 : ov < maxc) :
    ∃ l, chunk_text_paragraphwise t maxc ov = some l ∧ ∀ c ∈ l, c.length ≤ maxc := by
  rcases harden_some maxc ov h2 (paraChunksRaw t maxc ov) with ⟨r, hr, hb⟩
  refine ⟨r.filter (· ≠ []), ?_, ?_⟩
  · unfold chunk_text_paragraphwise
    rw [hr]
    rfl
  · intro c hc
    exact hb c (List.mem_of_mem_filter hc)

theorem claim_C1_witness :
    ∃ l, chunk_text_paragraphwise "aaaa\n\nbbbbbbb".data 5 1 = some l ∧
      ∀ c ∈ l, c.length ≤ 5 :=
  claim_C1 ("aaaa\n\nbbbbbbb".data) 5 1 (by decide) (by decide)

/-- C2: the hard-split fallback does not terminate when the overlap is at
least the maximum and a chunk exceeds the maximum. On the single-paragraph
text of two characters with maximum 1 and overlap 1, the window start is
recomputed as max(0, end − overlap) = 0 on every iteration, so the loop
never advances: the fuelled model returns none for every fuel, and the
chunker diverges on this input instead of advancing to the prior window's
end as the specification describes. -/
theorem claim_C2 :
    (∀ fuel acc, hardSplitGo "ab".data 1 1 fuel 0 acc = none) ∧
    chunk_text_paragraphwise "ab".data 1 1 = none := by
  constructor
  · intro fuel
    induction fuel with
    | zero => intro acc; rfl
    | succ fuel ih =>
      intro acc
      rw [hardSplitGo]
      rw [if_pos (by decide), if_neg (by decide)]
      exact ih _
  · decide

theorem getAll_some {α : Type} (l : List α) (idxs : List Nat)
    (H : ∀ i ∈ idxs, i < l.length) :
    getAll l idxs = some (idxs.pmap (fun i h => l.get ⟨i, h⟩) H) := by
  induction idxs with
  | nil => rfl
  | cons i is ih =>
    have hi : i < l.length := H i (List.mem_cons_self _ _)
    have ih2 := ih (fun j hj => H j (List.mem_cons_of_mem _ hj))
    rw [getAll, List.pmap, ih2, List.getElem?_eq_getElem hi]
    simp [List.get_eq_getElem]

theorem pmap_get_drop_sublist {α : Type} :
    ∀ (idxs : List Nat) (l : List α) (n : Nat) (H : ∀ i ∈ idxs, i < l.length),
      idxs.Pairwise (· < ·) → (∀ i ∈ idxs, n ≤ i) →
      (idxs.pmap (fun i h => l.get ⟨i, h⟩) H).Sublist (l.drop n) := by
  intro idxs
  induction idxs with
  | nil => intro l n H hp hge; simp
  | cons i is ih =>
    intro l n H hp hge
    have hi : i < l.length := H i (List.mem_cons_self _ _)
    have hni : n ≤ i := hge i (List.mem_cons_self _ _)
    have hlt : ∀ j ∈ is, i < j := (List.pairwise_cons.1 hp).1
    rw [List.pmap]
    have hsplit : l.drop n =
        (l.drop n).take (i - n) ++ l.get ⟨i, hi⟩ :: l.drop (i + 1) := by
      have h1 : (l.drop n).drop (i - n) = l.drop i := by
        rw [List.drop_drop]
        congr 1
        omega
      have h2 : l[i] :: l.drop (i + 1) = l.drop i := List.getElem_cons_drop l i hi
      conv_lhs => rw [← List.take_append_drop (i - n) (l.drop n)]
      rw [h1, ← h2]
      simp [List.get_eq_getElem]
    rw [hsplit]
    have htail : (is.pmap (fun j h => l.get ⟨j, h⟩)
        (fun j hj => H j (List.mem_cons_of_mem _ hj))).Sublist (l.drop (i + 1)) :=
      ih l (i + 1) _ (List.pairwise_cons.1 hp).2 (fun j hj => hlt j hj)
    exact (htail.cons₂ _).trans (List.sublist_append_right _ _)

theorem pmap_get_sublist {α : Type} (idxs : List Nat) (l : List α)
    (H : ∀ i ∈ idxs, i < l.length) (hp : idxs.Pairwise (· < ·)) :
    (idxs.pmap (fun i h => l.get ⟨i, h⟩) H).Sublist l := by
  have := pmap_get_drop_sublist idxs l 0 H hp (fun i _ => Nat.zero_le i)
  simpa using this

theorem nat_ble_trans : ∀ (a b c : Nat), Nat.ble a b → Nat.ble b c → Nat.ble a c := by
  intro a b c h1 h2
  simp only [Nat.ble_eq] at *
  omega

theorem nat_ble_total : ∀ (a b : Nat), Nat.ble a b || Nat.ble b a := by
  intro a b
  rcases Nat.le_total a b with h | h <;> simp [Nat.ble_eq, h]

/-- C3: when 0 < cap < length of the chunk list and the sampler returns cap
distinct in-range indices, the capper keeps exactly cap chunks, a sublist of
the input (so each kept chunk is an input chunk and original relative order
is preserved), with length - cap chunks capped away; when the cap is zero,
negative, or not exceeded, the list is returned unchanged. Uniformity of the
draw is a property of the library sampler and is abstracted into the sample
parameter. -/
theorem claim_C3 {σ : Type} (sample : σ → Nat → Nat → List Nat × σ)
    (chunks : List (List Char)) (cap : Int) (rng rng2 : σ) (idxs : List Nat) :
    ((cap ≤ 0 ∨ (chunks.length : Int) ≤ cap) →
        maybe_cap_chunks sample chunks cap rng = (some chunks, rng)) ∧
    (0 < cap → (cap : Int) < (chunks.length : Int) →
      sample rng chunks.length cap.toNat = (idxs, rng2) →
      idxs.Nodup → (∀ i ∈ idxs, i < chunks.length) → idxs.length = cap.toNat →
      ∃ picked, maybe_cap_chunks sample chunks cap rng = (some picked, rng2) ∧
        picked.length = cap.toNat ∧ picked.Sublist chunks ∧
        (∀ c ∈ picked, c ∈ chunks) ∧
        chunks.length - picked.length = chunks.length - cap.toNat) := by
  constructor
  · intro h
    unfold maybe_cap_chunks
    rw [if_pos h]
  · intro hpos hlt hs hnd hbound hlen
    unfold maybe_cap_chunks
    rw [if_neg (by omega)]
    simp only [hs]
    have Hs : ∀ i ∈ idxs.mergeSort Nat.ble, i < chunks.length := by
      intro i hi
      exact hbound i (List.mem_mergeSort.1 hi)
    have hsorted : (idxs.mergeSort Nat.ble).Pairwise (fun a b => Nat.ble a b) :=
      List.sorted_mergeSort nat_ble_trans nat_ble_total idxs
    have hnd2 : (idxs.mergeSort Nat.ble).Nodup :=
      (List.mergeSort_perm idxs Nat.ble).symm.nodup hnd
    have hplt : (idxs.mergeSort Nat.ble).Pairwise (· < ·) := by
      have := List.Pairwise.and hsorted hnd2
      exact this.imp (fun {a b} h => by
        rcases h with ⟨h1, h2⟩
        have : a ≤ b := by simpa [Nat.ble_eq] using h1
        omega)
    refine ⟨(idxs.mergeSort Nat.ble).pmap (fun i h => chunks.get ⟨i, h⟩) Hs, ?_, ?_, ?_, ?_, ?_⟩
    · rw [getAll_some chunks (idxs.mergeSort Nat.ble) Hs]
    · rw [List.length_pmap, List.length_mergeSort, hlen]
    · exact pmap_get_sublist _ chunks Hs hplt
    · intro c hc
      exact (pmap_get_sublist _ chunks Hs hplt).subset hc
    · rw [List.length_pmap, List.length_mergeSort, hlen]

theorem claim_C3_witness :
    ∃ picked,
      maybe_cap_chunks (fun (s : Nat) n k => ((List.range n).take k, s + 1))
        [['a'], ['b'], ['c']] 2 0 = (some picked, 1) ∧
      picked.length = (2 : Int).toNat ∧ picked.Sublist [['a'], ['b'], ['c']] ∧
      (∀ c ∈ picked, c ∈ [['a'], ['b'], ['c']]) ∧
      ([['a'], ['b'], ['c']] : List (List Char)).length - picked.length =
        ([['a'], ['b'], ['c']] : List (List Char)).length - (2 : Int).toNat :=
  (claim_C3 (fun (s : Nat) n k => ((List.range n).take k, s + 1))
      [['a'], ['b'], ['c']] 2 0 1 [0, 1]).2
    (by decide) (by decide) (by decide) (by decide) (by decide) (by decide)

/-- C10: when the cap is non-positive or the chunk list does not exceed the
cap, the capper returns the input list unchanged and performs no draw: the
random state component of the result is exactly the incoming state, so the
sequence of draws seen by later capping and by the final shuffle is
unaffected by under-cap documents. -/
theorem claim_C10 {σ : Type} (sample : σ → Nat → Nat → List Nat × σ)
    (chunks : List (List Char)) (cap : Int) (rng : σ)
    (h : cap ≤ 0 ∨ (chunks.length : Int) ≤ cap) :
    maybe_cap_chunks sample chunks cap rng = (some chunks, rng) := by
  unfold maybe_cap_chunks
  rw [if_pos h]

theorem claim_C10_witness :
    maybe_cap_chunks (fun (s : Nat) _ _ => ([], s)) [['a']] 0 7 = (some [['a']], 7) :=
  claim_C10 (fun (s : Nat) _ _ => ([], s)) [['a']] 0 7 (Or.inl (by decide))

theorem max_one_trunc_eq_floor (q : ℚ) : max 1 (pyIntTrunc q) = max 1 ⌊q⌋ := by
  by_cases hq : 0 ≤ q
  · have hnum : 0 ≤ q.num := Rat.num_nonneg.2 hq
    have hden : (0 : Int) ≤ (q.den : Int) := by positivity
    unfold pyIntTrunc
    rw [Int.tdiv_eq_ediv hnum hden, Rat.floor_def]
  · push_neg at hq
    have hnum : q.num ≤ 0 := by
      have := Rat.num_nonneg (q := q)
      by_contra hcon
      push_neg at hcon
      exact absurd (this.1 (by omega)) (by exact not_le.2 hq)
    have hden : (0 : Int) ≤ (q.den : Int) := by positivity
    have h1 : pyIntTrunc q ≤ 0 := by
      unfold pyIntTrunc
      have : Int.tdiv (-q.num) (q.den : Int) ≥ 0 := Int.tdiv_nonneg (by omega) hden
      have hne := Int.neg_tdiv q.num (q.den : Int)
      omega
    have h2 : ⌊q⌋ ≤ 0 := Int.floor_nonpos hq.le
    omega

/-- C4: the Dataset Assembler's partition of the shuffled record sequence:
the validation part followed by the training part is exactly the shuffled
sequence (hence the two occupy disjoint position ranges), their lengths sum
to the total, and the validation part is precisely the first
max(1, floor(total times ratio)) records when any records exist, with zero
validation records on an empty sequence. -/
theorem claim_C4 {α : Type} (records : List α) (r : ℚ) :
    (split_train_val records r).1 ++ (split_train_val records r).2 = records ∧
    (split_train_val records r).1.length + (split_train_val records r).2.length =
      records.length ∧
    (records.length = 0 → (split_train_val records r).1 = []) ∧
    (0 < records.length →
      (split_train_val records r).1 =
        records.take (max 1 ⌊(records.length : ℚ) * r⌋).toNat ∧
      (split_train_val records r).2 =
        records.drop (max 1 ⌊(records.length : ℚ) * r⌋).toNat) := by
  refine ⟨?_, ?_, ?_, ?_⟩
  · exact List.take_append_drop _ _
  · unfold split_train_val
    rw [List.length_take, List.length_drop]
    omega
  · intro h0
    unfold split_train_val val_size
    rw [if_pos h0]
    rfl
  · intro hpos
    have hvs : val_size records.length r = (max 1 ⌊(records.length : ℚ) * r⌋).toNat := by
      unfold val_size
      rw [if_neg (by omega), max_one_trunc_eq_floor]
    unfold split_train_val
    rw [hvs]
    exact ⟨rfl, rfl⟩

theorem claim_C4_witness :
    (split_train_val [0, 1, 2] (1 / 2 : ℚ)).1 =
      [0, 1, 2].take (max 1 ⌊((([0, 1, 2] : List Nat).length : ℚ)) * (1 / 2 : ℚ)⌋).toNat ∧
    (split_train_val [0, 1, 2] (1 / 2 : ℚ)).2 =
      [0, 1, 2].drop (max 1 ⌊((([0, 1, 2] : List Nat).length : ℚ)) * (1 / 2 : ℚ)⌋).toNat :=
  (claim_C4 [0, 1, 2] (1 / 2 : ℚ)).2.2.2 (by decide)

theorem chunkParts_of_short (maxc ov : Nat) (parts : List (List Char))
    (h : ∀ p ∈ parts, p.length ≤ maxc) : chunkParts maxc ov parts = some parts := by
  induction parts with
  | nil => rfl
  | cons p rest ih =>
    rw [chunkParts, if_pos (h p (List.mem_cons_self _ _))]
    rw [ih (fun q hq => h q (List.mem_cons_of_mem _ hq))]
    rfl

/-- C8: the Article Segmenter returns a span list only when it has at least
two spans and otherwise returns the no-split signal; the caller falls back
to paragraph chunking of the whole document on the no-split signal, and on
success chunks each span independently in article order, emitting every span
that does not exceed the maximum as a single chunk without further
splitting. -/
theorem claim_C8 (t : List Char) (maxc ov : Nat) :
    (split_by_articles t = none →
      chunk_document t maxc ov true = chunk_text_paragraphwise t maxc ov) ∧
    (∀ parts, split_by_articles t = some parts →
      2 ≤ parts.length ∧
      chunk_document t maxc ov true = chunkParts maxc ov parts ∧
      ((∀ p ∈ parts, p.length ≤ maxc) → chunk_document t maxc ov true = some parts)) := by
  constructor
  · intro hnone
    unfold chunk_document
    rw [if_pos rfl, hnone]
  · intro parts hsome
    have hlen : 2 ≤ parts.length := by
      unfold split_by_articles at hsome
      by_cases hL : (((reSplitArticles t).map pyStrip).filter (· ≠ [])).length > 1
      · rw [if_pos hL] at hsome
        injection hsome with hp
        rw [← hp]
        omega
      · rw [if_neg hL] at hsome
        exact absurd hsome (by simp)
    refine ⟨hlen, ?_, ?_⟩
    · unfold chunk_document
      rw [if_pos rfl, hsome]
      show (if parts = [] then chunk_text_paragraphwise t maxc ov
        else chunkParts maxc ov parts) = chunkParts maxc ov parts
      rw [if_neg (by intro hcon; rw [hcon] at hlen; simp at hlen)]
    · intro hshort
      unfold chunk_document
      rw [if_pos rfl, hsome]
      show (if parts = [] then chunk_text_paragraphwise t maxc ov
        else chunkParts maxc ov parts) = some parts
      rw [if_neg (by intro hcon; rw [hcon] at hlen; simp at hlen)]
      exact chunkParts_of_short maxc ov parts hshort

theorem claim_C8_witness :
    chunk_document "المادة (1)\nنص أول\n\nالمادة (2)\nنص ثان".data 100 0 true =
      some ["المادة (1)\nنص أول".data, "المادة (2)\nنص ثان".data] :=
  (((claim_C8 ("المادة (1)\nنص أول\n\nالمادة (2)\nنص ثان".data) 100 0).2
      ["المادة (1)\nنص أول".data, "المادة (2)\nنص ثان".data] (by decide)).2.2) (by decide)

theorem overridesLoop_isOk (parts : List (List Char)) :
    ∀ out, (overridesLoop parts out).isOk = parts.all goodPart := by
  induction parts with
  | nil => intro out; rfl
  | cons part0 rest ih =>
    intro out
    rw [overridesLoop]
    by_cases h1 : pyStrip part0 = []
    · rw [if_pos h1, ih]
      have hg : goodPart part0 = true := by
        unfold goodPart
        simp [h1]
      rw [List.all_cons, hg]
      rfl
    · rw [if_neg h1]
      by_cases h2 : (pyStrip part0).contains '=' = true
      · have h2m : '=' ∈ pyStrip part0 := by simpa using h2
        rw [if_neg (by simp [h2m])]
        cases hint : pyParseInt (pyStrip (((pyStrip part0).dropWhile (· != '=')).tail)) with
        | none =>
          have hg : goodPart part0 = false := by
            unfold goodPart
            simp [h1, hint, h2m]
          rw [List.all_cons, hg]
          rfl
        | some n =>
          rw [ih]
          have hg : goodPart part0 = true := by
            unfold goodPart
            simp [h2m, hint]
          rw [List.all_cons, hg]
          rfl
      · have h2m : '=' ∉ pyStrip part0 := by simpa using h2
        rw [if_pos (by simpa using h2)]
        have hg : goodPart part0 = false := by
          unfold goodPart
          simp [h1, h2m]
        rw [List.all_cons, hg]
        rfl

/-- C9: parse_overrides succeeds exactly when every non-blank
comma-separated part has an equals sign and an integer-parsable value (so it
raises exactly when some non-empty part is malformed), and an empty or
all-whitespace configuration string yields the empty mapping. -/
theorem claim_C9 (s : List Char) :
    ((parse_overrides s).isOk = true ↔ ∀ part ∈ splitOn ',' s, goodPart part = true) ∧
    (pyStrip s = [] → parse_overrides s = Except.ok []) := by
  constructor
  · by_cases h0 : pyStrip s = []
    · rw [parse_overrides, if_pos h0]
      constructor
      · intro _ part hp
        have hws : ∀ c ∈ s, isPySpace c := (pyStrip_eq_nil_iff s).1 h0
        have hpart : pyStrip part = [] := by
          rw [pyStrip_eq_nil_iff]
          intro c hc
          exact hws c (mem_of_mem_splitOn ',' s part hp c hc)
        unfold goodPart
        simp [hpart]
      · intro _
        rfl
    · rw [parse_overrides, if_neg h0, overridesLoop_isOk]
      exact List.all_eq_true
  · intro h0
    rw [parse_overrides, if_pos h0]

theorem claim_C9_witness : (parse_overrides "AD=300, RD = 200".data).isOk = true :=
  (claim_C9 ("AD=300, RD = 200".data)).1.2 (by decide)

end Qanoon
